import Mathlib

/-!
Shallow embedding of the `kvs` log-structured key/value store
(`src/kv.rs`, `src/writer.rs`, `src/kvs/reader.rs`, `src/commands.rs`,
`src/log_pointer.rs`) and proofs about its specification claims.

Modelling conventions:
- Machine integers (`u64`) are modelled as `Nat`; none of the verified
  executions ever approach `2^64` and the only place the source depends on
  64-bit arithmetic (`u64` parsing of file stems) carries an explicit
  `< 2^64` bound.
- A segment file on disk is modelled as the list of records appended to it,
  `List Command`; byte offsets are recovered through the encoded byte length
  `encLen` of each record (the serde_json wire format, including its string
  escaping rules, is reproduced so that `encLen` is the real byte count).
- `serde_json::from_reader` applied to a `take(len)` sub-reader starting at
  byte `start` succeeds exactly when `(start, len)` is the byte range of one
  encoded record; `recordAt` models this.
- `HashMap` (readers) and the directory of files are modelled as association
  lists with canonical insert (`alSet`) and lookup (`alGet`); the `BTreeMap`
  index is an association list iterated in key order.
- Rust panics (`.expect`) are modelled by an outer `Option`: `none` means the
  process panicked.  I/O never fails spontaneously in the model; the one
  claim about a failing write uses an explicit failure switch (`removeCore`).
-/

/-- The command enum of `src/commands.rs` (`Get`/`Set`/`Rm`). -/
inductive Command where
  | Get (key : String)
  | Set (key : String) (value : String)
  | Rm (key : String)
deriving DecidableEq

/-- One hexadecimal digit, lower case, as written by serde_json. -/
def hexDigit (n : Nat) : Char :=
  if n < 10 then Char.ofNat (48 + n) else Char.ofNat (97 + (n - 10))

/-- serde_json string escaping of a single character: quote and backslash get
a backslash; control characters use the two-character escapes `\b \t \n \f \r`
or the six-byte `\u00XX` form; everything else is emitted verbatim. -/
def escapeChar (c : Char) : String :=
  if c = '"' then "\\\""
  else if c = '\\' then "\\\\"
  else if c.toNat = 8 then "\\b"
  else if c.toNat = 9 then "\\t"
  else if c.toNat = 10 then "\\n"
  else if c.toNat = 12 then "\\f"
  else if c.toNat = 13 then "\\r"
  else if c.toNat < 32 then
    String.mk ['\\', 'u', '0', '0', hexDigit (c.toNat / 16), hexDigit (c.toNat % 16)]
  else String.mk [c]

/-- serde_json escaping of a whole string. -/
def escapeString (s : String) : String :=
  String.join (s.data.map escapeChar)

/-- The serde_json externally-tagged encoding of a `Command`, as written by
`serde_json::to_writer` for the derived `Serialize` of `src/commands.rs`. -/
def encode : Command → String
  | .Get k => "\x7b\"Get\":\x7b\"key\":\"" ++ escapeString k ++ "\"\x7d\x7d"
  | .Set k v =>
      "\x7b\"Set\":\x7b\"key\":\"" ++ escapeString k ++ "\",\"value\":\""
        ++ escapeString v ++ "\"\x7d\x7d"
  | .Rm k => "\x7b\"Rm\":\x7b\"key\":\"" ++ escapeString k ++ "\"\x7d\x7d"

/-- UTF-8 byte length of a string (the number of bytes a Rust writer emits). -/
def utf8Len (s : String) : Nat :=
  (s.data.map Char.utf8Size).sum

/-- Encoded byte length of a record: what `serde_json::to_writer` appends and
what the `Deserializer` byte offsets advance by. -/
def encLen (c : Command) : Nat :=
  utf8Len (encode c)

/-- The log pointer of `src/log_pointer.rs`. -/
structure LogPointer where
  log_file_id : Nat
  start_position : Nat
  len : Nat
deriving DecidableEq

/-- `From<(u64, Range<u64>)> for LogPointer`: stores `len = end - start`. -/
def LogPointer.ofRange (id s e : Nat) : LogPointer :=
  ⟨id, s, e - s⟩

/-- The error enum of `src/errors.rs` (payloads dropped; only the variants the
engine core produces are kept). -/
inductive KvsError where
  | KeyNotFound
  | UnexpectedCommand
  | SerializationError
  | IOError
deriving DecidableEq

/-- Association list lookup by numeric key (model of `HashMap::get` and of
opening `<id>.log` in the engine directory). -/
def alGet {α : Type} : List (Nat × α) → Nat → Option α
  | [], _ => none
  | (i, v) :: r, id => if id = i then some v else alGet r id

/-- Association list insert-or-replace (model of `HashMap::insert` / creating
or rewriting `<id>.log`; a `HashMap` has no meaningful order). -/
def alSet {α : Type} (l : List (Nat × α)) (id : Nat) (v : α) : List (Nat × α) :=
  (id, v) :: l.filter (fun e => !(e.1 == id))

/-- A segment file: the sequence of records appended to it. -/
abbrev LogFile := List Command

/-- The engine directory: segment id to file contents. -/
abbrev Disk := List (Nat × LogFile)

/-- The readers map: segment id to the reader position (`BufReaderWithPos.pos`). -/
abbrev Readers := List (Nat × Nat)

/-- The in-memory `BTreeMap<String, LogPointer>` index as an association list
kept in ascending key order. -/
abbrev Index := List (String × LogPointer)

/-- Byte size of a segment file. -/
def fileSize (f : LogFile) : Nat :=
  (f.map encLen).sum

/-- `BufWriterWithPos` of `src/writer.rs`: `pos` counts every byte accepted by
`write`; `buffered` counts the bytes still sitting in the user-space
`BufWriter` buffer (not yet flushed). -/
structure BufWriterWithPos where
  pos : Nat
  buffered : Nat
deriving DecidableEq

/-- `Write::write`: `self.pos += len`. -/
def BufWriterWithPos.write (w : BufWriterWithPos) (n : Nat) : BufWriterWithPos :=
  ⟨w.pos + n, w.buffered + n⟩

/-- `Write::flush`: pushes the buffered bytes out; `pos` is untouched. -/
def BufWriterWithPos.flush (w : BufWriterWithPos) : BufWriterWithPos :=
  ⟨w.pos, 0⟩

/-- Bytes of the writer that have left the user-space buffer. -/
def BufWriterWithPos.flushedBytes (w : BufWriterWithPos) : Nat :=
  w.pos - w.buffered

/-- BTreeMap lookup. -/
def idxGet : Index → String → Option LogPointer
  | [], _ => none
  | (k', v) :: rest, k => if k = k' then some v else idxGet rest k

/-- BTreeMap insert on the sorted association list; returns the displaced old
value (as `BTreeMap::insert` does) together with the new list. -/
def idxInsert : Index → String → LogPointer → Option LogPointer × Index
  | [], k, v => (none, [(k, v)])
  | (k', v') :: rest, k, v =>
    if k = k' then (some v', (k, v) :: rest)
    else if k < k' then (none, (k, v) :: (k', v') :: rest)
    else
      let r := idxInsert rest k v
      (r.1, (k', v') :: r.2)

/-- BTreeMap remove; returns the removed value (as `BTreeMap::remove` does)
together with the new list. -/
def idxRemove : Index → String → Option LogPointer × Index
  | [], _ => (none, [])
  | (k', v') :: rest, k =>
    if k = k' then (some v', rest)
    else
      let r := idxRemove rest k
      (r.1, (k', v') :: r.2)

/-- The index keys are strictly increasing (the `BTreeMap` representation
invariant). -/
def IdxSorted (l : Index) : Prop :=
  (l.map Prod.fst).Pairwise (· < ·)

/-- Reading one record from a segment: seeking to byte `start` and JSON-decoding
a `take len` sub-reader succeeds exactly when `(start, len)` is the byte range
of one encoded record; `off` is the byte offset of the first listed record. -/
def recordAtAux : LogFile → Nat → Nat → Nat → Option Command
  | [], _, _, _ => none
  | c :: cs, off, start, len =>
    if start = off ∧ len = encLen c then some c
    else recordAtAux cs (off + encLen c) start len

/-- Reading one record from a whole segment file. -/
def recordAt (f : LogFile) (start len : Nat) : Option Command :=
  recordAtAux f 0 start len

/-- The `KvStore` of `src/kv.rs` (the `path` field is subsumed by `disk`). -/
structure KvStore where
  disk : Disk
  readers : Readers
  writer : BufWriterWithPos
  current_log_id : Nat
  index : Index
  uncompacted : Nat
deriving DecidableEq

/-- `COMPACTION_THRESHOLD` of `src/kv.rs`: `1024 * 1024`. -/
def COMPACTION_THRESHOLD : Nat := 1024 * 1024

/-- `create_new_log_file`: opens `<id>.log` with create+append (content kept if
the file already exists), builds a writer positioned at end-of-file
(`BufWriterWithPos::new` seeks to `SeekFrom::End(0)`), and inserts a fresh
reader (position 0) into the readers map. -/
def create_new_log_file (disk : Disk) (id : Nat) (readers : Readers) :
    BufWriterWithPos × Disk × Readers :=
  let content := (alGet disk id).getD []
  (⟨fileSize content, 0⟩, alSet disk id content, alSet readers id 0)

/-- `KvStore::get`.  The outer `Option` is `none` when the source would panic
(`.expect("Log reader not found")`, or reading through a handle whose file the
model does not have).  On an index hit the reader for the pointed-to segment is
seeked to `start_position` and one record is decoded from the next `len` bytes;
the reader position ends after the bytes the decoder consumed. -/
def KvStore.get (s : KvStore) (key : String) :
    Option (Except KvsError (Option String) × KvStore) :=
  match idxGet s.index key with
  | some cmd =>
    match alGet s.readers cmd.log_file_id with
    | none => none
    | some _ =>
      match alGet s.disk cmd.log_file_id with
      | none => none
      | some f =>
        match recordAt f cmd.start_position cmd.len with
        | some (Command.Set _ v) =>
            some (Except.ok (some v),
              { s with readers :=
                  alSet s.readers cmd.log_file_id (cmd.start_position + cmd.len) })
        | some _ =>
            some (Except.error KvsError.UnexpectedCommand,
              { s with readers :=
                  alSet s.readers cmd.log_file_id (cmd.start_position + cmd.len) })
        | none =>
            some (Except.error KvsError.SerializationError,
              { s with readers :=
                  alSet s.readers cmd.log_file_id cmd.start_position })
  | none => some (Except.ok none, s)

/-- `load_log_file` loop body: replays the records of one segment, maintaining
`pos`/`end_pos` byte offsets exactly as the source does.  `Set` inserts a
pointer (displaced pointers feed `uncompacted`); `Rm` removes the key and also
counts its own tombstone bytes; every other record falls into the source's
`_ => {}` arm and is skipped.  The `Except` mirrors the `Result<u64>` return
type (record streams in the model are always well formed). -/
def loadAux (id : Nat) : LogFile → Nat → Index → Nat → Except KvsError (Index × Nat)
  | [], _, index, unc => Except.ok (index, unc)
  | c :: cs, pos, index, unc =>
    let end_pos := pos + encLen c
    match c with
    | Command.Set k _ =>
        let r := idxInsert index k (LogPointer.ofRange id pos end_pos)
        loadAux id cs end_pos r.2
          (unc + (match r.1 with | some old => old.len | none => 0))
    | Command.Rm k =>
        let r := idxRemove index k
        loadAux id cs end_pos r.2
          (unc + (match r.1 with | some old => old.len | none => 0) + (end_pos - pos))
    | _ => loadAux id cs end_pos index unc

/-- `load_log_file`: replay one segment from byte 0. -/
def load_log_file (id : Nat) (f : LogFile) (index : Index) :
    Except KvsError (Index × Nat) :=
  loadAux id f 0 index 0

/-- The per-file loop of `KvStore::open`: open a reader for each listed id,
replay it, and record the reader (its position ends at end-of-file after the
replay stream is exhausted). -/
def openLoop (disk : Disk) :
    List Nat → Readers → Index → Nat → Except KvsError (Readers × Index × Nat)
  | [], readers, index, unc => Except.ok (readers, index, unc)
  | id :: rest, readers, index, unc =>
    match alGet disk id with
    | none => Except.error KvsError.IOError
    | some f =>
      match load_log_file id f index with
      | Except.error e => Except.error e
      | Except.ok (index', du) =>
          openLoop disk rest (alSet readers id (fileSize f)) index' (unc + du)

/-- `KvStore::open` on an already-id-keyed directory: replay all segments in
ascending id order, then create the fresh active segment
`file_ids.last().unwrap_or(&0) + 1`.  (The filename-level enumeration
`sort_log_files` is modelled separately on directory entries.) -/
def KvStore.openStore (disk : Disk) : Except KvsError KvStore :=
  let ids := (disk.map Prod.fst).insertionSort (· ≤ ·)
  match openLoop disk ids [] [] 0 with
  | Except.error e => Except.error e
  | Except.ok (readers, index, unc) =>
    let current := ids.getLast?.getD 0 + 1
    let r := create_new_log_file disk current readers
    Except.ok
      { disk := r.2.1, readers := r.2.2, writer := r.1,
        current_log_id := current, index := index, uncompacted := unc }

/-- The per-pointer loop of `KvStore::compact`: for each index entry (in key
order) the source reader is seeked to the pointer, `len` bytes are copied into
the compaction writer, and the pointer is rewritten to
`(compact_id, pos..pos + copied)`.  `none` models the `.expect` panic on a
missing reader, and the byte-level copy of data that is not one whole record
(impossible in reachable states) is likewise mapped to `none`. -/
def compactLoop (cid : Nat) (disk : Disk) :
    Index → Readers → LogFile → Nat → Option (Index × Readers × LogFile × Nat)
  | [], readers, cf, pos => some ([], readers, cf, pos)
  | (k, p) :: rest, readers, cf, pos =>
    match alGet readers p.log_file_id with
    | none => none
    | some _ =>
      match alGet disk p.log_file_id with
      | none => none
      | some f =>
        match recordAt f p.start_position p.len with
        | none => none
        | some c =>
          let copied := encLen c
          let readers' := alSet readers p.log_file_id (p.start_position + copied)
          match compactLoop cid disk rest readers' (cf ++ [c]) (pos + copied) with
          | none => none
          | some (rest', r2, cf', pos') =>
              some ((k, LogPointer.ofRange cid pos (pos + copied)) :: rest', r2, cf', pos')

/-- `KvStore::compact`: allocate `compact_id = active + 1` and a new active
segment `active + 2`, rewrite every live record into the compaction file,
flush, delete every reader-known segment with id `< compact_id` (and its file;
a missing file makes `fs::remove_file` fail, modelled as `none`), and reset
`uncompacted` to 0. -/
def KvStore.compact (s : KvStore) : Option KvStore :=
  let cid := s.current_log_id + 1
  let nid := s.current_log_id + 2
  let ra := create_new_log_file s.disk nid s.readers
  let rb := create_new_log_file ra.2.1 cid ra.2.2
  match compactLoop cid rb.2.1 s.index rb.2.2 ((alGet rb.2.1 cid).getD []) 0 with
  | none => none
  | some (index', readers3, cf', _) =>
    let disk3 := alSet rb.2.1 cid cf'
    if (readers3.filter (fun e => decide (e.1 < cid))).all
        (fun e => (alGet disk3 e.1).isSome) then
      some
        { disk := disk3.filter
            (fun e => !(decide (e.1 < cid) && (alGet readers3 e.1).isSome)),
          readers := readers3.filter (fun e => !decide (e.1 < cid)),
          writer := ra.1,
          current_log_id := nid,
          index := index',
          uncompacted := 0 }
    else none

/-- The state `KvStore::set` has built right before its compaction check:
command encoded and appended at `pos0 = writer.pos`, writer flushed, pointer
`(current_log_id, pos0..pos1)` inserted, displaced pointer bytes added to
`uncompacted`. -/
def setMid (s : KvStore) (key value : String) : KvStore :=
  let cmd := Command.Set key value
  let pos := s.writer.pos
  let w2 := (s.writer.write (encLen cmd)).flush
  let f := (alGet s.disk s.current_log_id).getD []
  let end_pos := w2.pos
  let r := idxInsert s.index key (LogPointer.ofRange s.current_log_id pos end_pos)
  { s with
    disk := alSet s.disk s.current_log_id (f ++ [cmd]),
    writer := w2,
    index := r.2,
    uncompacted := s.uncompacted + (match r.1 with | some old => old.len | none => 0) }

/-- `KvStore::set`; compaction runs when `uncompacted` exceeds the threshold. -/
def KvStore.set (s : KvStore) (key value : String) : Option KvStore :=
  let s1 := setMid s key value
  if s1.uncompacted > COMPACTION_THRESHOLD then s1.compact else some s1

/-- `KvStore::remove` with the fallibility of the tombstone write made
explicit: `writeOk = false` means `serde_json::to_writer`/`flush` fails there,
in which case the error propagates with the index entry already removed and
the displaced pointer bytes already counted (the source mutates before
writing; nothing is rolled back). -/
def KvStore.removeCore (s : KvStore) (key : String) (writeOk : Bool) :
    Option (Except KvsError Unit × KvStore) :=
  match idxRemove s.index key with
  | (some old, index') =>
    let unc1 := s.uncompacted + old.len
    if writeOk then
      let pos := s.writer.pos
      let cmd := Command.Rm key
      let w2 := (s.writer.write (encLen cmd)).flush
      let f := (alGet s.disk s.current_log_id).getD []
      let end_pos := w2.pos
      let unc2 := unc1 + (end_pos - pos)
      let s1 : KvStore :=
        { s with
          disk := alSet s.disk s.current_log_id (f ++ [cmd]),
          writer := w2, index := index', uncompacted := unc2 }
      if unc2 > COMPACTION_THRESHOLD then
        (s1.compact).map (fun s2 => (Except.ok (), s2))
      else some (Except.ok (), s1)
    else
      some (Except.error KvsError.SerializationError,
        { s with index := index', uncompacted := unc1 })
  | (none, _) => some (Except.error KvsError.KeyNotFound, s)

/-- `KvStore::remove` (the tombstone write succeeds). -/
def KvStore.remove (s : KvStore) (key : String) :
    Option (Except KvsError Unit × KvStore) :=
  s.removeCore key true

theorem utf8Len_append (a b : String) : utf8Len (a ++ b) = utf8Len a + utf8Len b := by
  simp [utf8Len, String.data_append]

set_option maxRecDepth 4096 in
theorem encLen_pos (c : Command) : 0 < encLen c := by
  cases c with
  | Get k =>
      show 0 < utf8Len ("\x7b\"Get\":\x7b\"key\":\"" ++ escapeString k ++ "\"\x7d\x7d")
      rw [utf8Len_append, utf8Len_append]
      have h : 0 < utf8Len "\x7b\"Get\":\x7b\"key\":\"" := by decide
      omega
  | Set k v =>
      show 0 < utf8Len ("\x7b\"Set\":\x7b\"key\":\"" ++ escapeString k ++ "\",\"value\":\""
        ++ escapeString v ++ "\"\x7d\x7d")
      rw [utf8Len_append, utf8Len_append, utf8Len_append, utf8Len_append]
      have h : 0 < utf8Len "\x7b\"Set\":\x7b\"key\":\"" := by decide
      omega
  | Rm k =>
      show 0 < utf8Len ("\x7b\"Rm\":\x7b\"key\":\"" ++ escapeString k ++ "\"\x7d\x7d")
      rw [utf8Len_append, utf8Len_append]
      have h : 0 < utf8Len "\x7b\"Rm\":\x7b\"key\":\"" := by decide
      omega

theorem alGet_filterKey {α : Type} (q : Nat → Bool) (l : List (Nat × α)) (id : Nat) :
    alGet (l.filter (fun e => q e.1)) id = if q id then alGet l id else none := by
  induction l with
  | nil => simp [alGet]
  | cons e r ih =>
      obtain ⟨i, v⟩ := e
      by_cases hq : q i
      · rw [show (i, v) :: r = [(i, v)] ++ r from rfl, List.filter_append]
        simp only [List.filter, hq]
        by_cases hid : id = i
        · subst hid; simp [alGet, hq]
        · simp only [List.singleton_append, alGet, if_neg hid]
          exact ih
      · rw [show (i, v) :: r = [(i, v)] ++ r from rfl, List.filter_append]
        simp only [List.filter, Bool.not_eq_true] at hq ⊢
        rw [hq]
        by_cases hid : id = i
        · subst hid; simp [alGet, ih, hq]
        · simp only [List.nil_append, alGet, if_neg hid] at *
          rw [ih]
          by_cases hqid : q id <;> simp [hqid, alGet, if_neg hid]

theorem alGet_set_self {α : Type} (l : List (Nat × α)) (id : Nat) (v : α) :
    alGet (alSet l id v) id = some v := by
  simp [alSet, alGet]

theorem alGet_set_other {α : Type} (l : List (Nat × α)) (id : Nat) (v : α)
    (id' : Nat) (h : id' ≠ id) : alGet (alSet l id v) id' = alGet l id' := by
  simp only [alSet, alGet, if_neg (fun he => h he)]
  have := alGet_filterKey (fun i => !(i == id)) l id'
  simp only [beq_iff_eq] at this
  rw [show (fun (e : Nat × α) => !(e.1 == id)) = (fun e => (fun i => !(i == id)) e.1) from rfl,
    this]
  simp [h]

theorem alGet_some_mem {α : Type} {l : List (Nat × α)} {id : Nat} {v : α}
    (h : alGet l id = some v) : (id, v) ∈ l := by
  induction l with
  | nil => simp [alGet] at h
  | cons e r ih =>
      obtain ⟨i, w⟩ := e
      simp only [alGet] at h
      split at h
      · next heq =>
          cases h
          subst heq
          exact List.mem_cons_self _ _
      · exact List.mem_cons_of_mem _ (ih h)

theorem alGet_set_isSome {α : Type} (l : List (Nat × α)) (id : Nat) (v : α)
    (hid : (alGet l id).isSome) (id' : Nat) :
    (alGet (alSet l id v) id').isSome = (alGet l id').isSome := by
  by_cases h : id' = id
  · subst h; rw [alGet_set_self]; simp [Option.isSome]
    cases hh : alGet l id' with
    | none => rw [hh] at hid; simp [Option.isSome] at hid
    | some w => simp
  · rw [alGet_set_other _ _ _ _ h]

theorem idxGet_eq_none_iff (l : Index) (k : String) :
    idxGet l k = none ↔ k ∉ l.map Prod.fst := by
  induction l with
  | nil => simp [idxGet]
  | cons e r ih =>
      obtain ⟨k', v⟩ := e
      by_cases h : k = k'
      · subst h; simp [idxGet]
      · simp [idxGet, if_neg h, ih, h]

theorem idxGet_insert_self (l : Index) (k : String) (v : LogPointer) :
    idxGet (idxInsert l k v).2 k = some v := by
  induction l with
  | nil => simp [idxInsert, idxGet]
  | cons e r ih =>
      obtain ⟨k', v'⟩ := e
      simp only [idxInsert]
      by_cases h : k = k'
      · rw [if_pos h]; simp [idxGet]
      · rw [if_neg h]
        by_cases hlt : k < k'
        · rw [if_pos hlt]; simp [idxGet]
        · rw [if_neg hlt]
          simp only [idxGet, if_neg h]
          exact ih

theorem idxGet_insert_other (l : Index) (k : String) (v : LogPointer)
    (q : String) (h : q ≠ k) : idxGet (idxInsert l k v).2 q = idxGet l q := by
  induction l with
  | nil => simp [idxInsert, idxGet, if_neg h]
  | cons e r ih =>
      obtain ⟨k', v'⟩ := e
      simp only [idxInsert]
      by_cases hk : k = k'
      · subst hk
        rw [if_pos rfl]
        simp [idxGet, if_neg h]
      · rw [if_neg hk]
        by_cases hlt : k < k'
        · rw [if_pos hlt]
          simp only [idxGet, if_neg h]
        · rw [if_neg hlt]
          by_cases hq : q = k'
          · simp [idxGet, hq]
          · simp only [idxGet, if_neg hq]
            exact ih

theorem idxRemove_fst (l : Index) (k : String) : (idxRemove l k).1 = idxGet l k := by
  induction l with
  | nil => simp [idxRemove, idxGet]
  | cons e r ih =>
      obtain ⟨k', v'⟩ := e
      by_cases h : k = k'
      · simp [idxRemove, idxGet, if_pos h]
      · simp [idxRemove, idxGet, if_neg h, ih]

theorem idxGet_remove_other (l : Index) (k q : String) (h : q ≠ k) :
    idxGet (idxRemove l k).2 q = idxGet l q := by
  induction l with
  | nil => simp [idxRemove]
  | cons e r ih =>
      obtain ⟨k', v'⟩ := e
      by_cases hk : k = k'
      · subst hk
        simp [idxRemove, idxGet, if_neg h]
      · by_cases hq : q = k'
        · simp [idxRemove, if_neg hk, idxGet, hq]
        · simp [idxRemove, if_neg hk, idxGet, if_neg hq, ih]

theorem idxInsert_fst (l : Index) (k : String) (v : LogPointer) (hs : IdxSorted l) :
    (idxInsert l k v).1 = idxGet l k := by
  induction l with
  | nil => simp [idxInsert, idxGet]
  | cons e r ih =>
      obtain ⟨k', v'⟩ := e
      simp only [idxInsert]
      have hs' : IdxSorted r := by
        simp only [IdxSorted, List.map_cons, List.pairwise_cons] at hs
        exact hs.2
      have hhead : ∀ q ∈ r.map Prod.fst, k' < q := by
        simp only [IdxSorted, List.map_cons, List.pairwise_cons] at hs
        exact hs.1
      by_cases h : k = k'
      · rw [if_pos h]; simp [idxGet, h]
      · rw [if_neg h]
        by_cases hlt : k < k'
        · rw [if_pos hlt]
          simp only [idxGet, if_neg h]
          rw [(idxGet_eq_none_iff r k).2]
          intro hmem
          exact absurd (hhead k hmem) (not_lt_of_lt hlt)
        · rw [if_neg hlt]
          simp only [idxGet, if_neg h]
          exact ih hs'

theorem idxGet_remove_self (l : Index) (k : String) (hs : IdxSorted l) :
    idxGet (idxRemove l k).2 k = none := by
  induction l with
  | nil => simp [idxRemove, idxGet]
  | cons e r ih =>
      obtain ⟨k', v'⟩ := e
      have hs' : IdxSorted r := by
        simp only [IdxSorted, List.map_cons, List.pairwise_cons] at hs
        exact hs.2
      have hhead : ∀ q ∈ r.map Prod.fst, k' < q := by
        simp only [IdxSorted, List.map_cons, List.pairwise_cons] at hs
        exact hs.1
      simp only [idxRemove]
      by_cases h : k = k'
      · rw [if_pos h]
        rw [(idxGet_eq_none_iff r k).2]
        intro hmem
        exact absurd (h ▸ hhead k hmem) (lt_irrefl k)
      · rw [if_neg h]
        simp only [idxGet, if_neg h]
        exact ih hs'

theorem idxInsert_keys (l : Index) (k : String) (v : LogPointer) (q : String) :
    q ∈ (idxInsert l k v).2.map Prod.fst ↔ q = k ∨ q ∈ l.map Prod.fst := by
  induction l with
  | nil => simp [idxInsert]
  | cons e r ih =>
      obtain ⟨k', v'⟩ := e
      simp only [idxInsert]
      by_cases h : k = k'
      · rw [if_pos h]
        subst h
        simp only [List.map_cons, List.mem_cons]
        tauto
      · rw [if_neg h]
        by_cases hlt : k < k'
        · rw [if_pos hlt]
          simp only [List.map_cons, List.mem_cons]
        · rw [if_neg hlt]
          simp only [List.map_cons, List.mem_cons, ih]
          tauto

theorem idxInsert_sorted (l : Index) (k : String) (v : LogPointer) (hs : IdxSorted l) :
    IdxSorted (idxInsert l k v).2 := by
  induction l with
  | nil => simp [idxInsert, IdxSorted]
  | cons e r ih =>
      obtain ⟨k', v'⟩ := e
      have hs' : IdxSorted r := by
        simp only [IdxSorted, List.map_cons, List.pairwise_cons] at hs
        exact hs.2
      have hhead : ∀ q ∈ r.map Prod.fst, k' < q := by
        simp only [IdxSorted, List.map_cons, List.pairwise_cons] at hs
        exact hs.1
      simp only [idxInsert]
      by_cases h : k = k'
      · rw [if_pos h]
        subst h
        simp only [IdxSorted, List.map_cons, List.pairwise_cons]
        exact ⟨hhead, hs'⟩
      · rw [if_neg h]
        by_cases hlt : k < k'
        · rw [if_pos hlt]
          simp only [IdxSorted, List.map_cons, List.pairwise_cons]
          refine ⟨?_, hhead, hs'⟩
          intro q hq
          rcases List.mem_cons.1 hq with hq | hq
          · exact hq ▸ hlt
          · exact lt_trans hlt (hhead q hq)
        · rw [if_neg hlt]
          have hgt : k' < k := by
            rcases lt_trichotomy k k' with h1 | h1 | h1
            · exact absurd h1 hlt
            · exact absurd h1 h
            · exact h1
          simp only [IdxSorted, List.map_cons, List.pairwise_cons]
          refine ⟨?_, ih hs'⟩
          intro q hq
          rcases (idxInsert_keys r k v q).1 hq with hq | hq
          · exact hq ▸ hgt
          · exact hhead q hq

theorem idxRemove_sublist (l : Index) (k : String) :
    List.Sublist (idxRemove l k).2 l := by
  induction l with
  | nil => simp [idxRemove]
  | cons e r ih =>
      obtain ⟨k', v'⟩ := e
      simp only [idxRemove]
      by_cases h : k = k'
      · rw [if_pos h]
        exact List.sublist_cons_self _ _
      · rw [if_neg h]
        exact List.Sublist.cons₂ _ ih

theorem idxRemove_sorted (l : Index) (k : String) (hs : IdxSorted l) :
    IdxSorted (idxRemove l k).2 := by
  exact List.Pairwise.sublist (List.Sublist.map Prod.fst (idxRemove_sublist l k)) hs

theorem fileSize_append (f g : LogFile) : fileSize (f ++ g) = fileSize f + fileSize g := by
  simp [fileSize]

theorem recordAtAux_append_left {f : LogFile} {off start len : Nat} {c : Command}
    (g : LogFile) (h : recordAtAux f off start len = some c) :
    recordAtAux (f ++ g) off start len = some c := by
  induction f generalizing off with
  | nil => simp [recordAtAux] at h
  | cons d r ih =>
      simp only [recordAtAux] at h ⊢
      split at h
      · next hc => simp only [List.cons_append, recordAtAux, if_pos hc]; exact h
      · next hc =>
          simp only [List.cons_append, recordAtAux, if_neg hc]
          exact ih h

theorem recordAtAux_at (f : LogFile) (c : Command) (g : LogFile) (off : Nat) :
    recordAtAux (f ++ c :: g) off (off + fileSize f) (encLen c) = some c := by
  induction f generalizing off with
  | nil =>
      simp [recordAtAux, fileSize]
  | cons d r ih =>
      have hpos := encLen_pos d
      simp only [List.cons_append, recordAtAux]
      rw [if_neg]
      · have := ih (off + encLen d)
        rw [show off + encLen d + fileSize r = off + fileSize (d :: r) by
          simp [fileSize]; omega] at this
        exact this
      · intro hc
        have h1 : fileSize (d :: r) = encLen d + fileSize r := by simp [fileSize]
        omega

theorem recordAt_append_cons (f : LogFile) (c : Command) (g : LogFile) :
    recordAt (f ++ c :: g) (fileSize f) (encLen c) = some c := by
  have := recordAtAux_at f c g 0
  simpa [recordAt] using this

theorem recordAt_snoc_self (f : LogFile) (c : Command) :
    recordAt (f ++ [c]) (fileSize f) (encLen c) = some c :=
  recordAt_append_cons f c []

theorem recordAt_append_left {f : LogFile} {start len : Nat} {c : Command}
    (g : LogFile) (h : recordAt f start len = some c) :
    recordAt (f ++ g) start len = some c :=
  recordAtAux_append_left g h

theorem recordAt_len {f : LogFile} {start len : Nat} {c : Command}
    (h : recordAt f start len = some c) : len = encLen c := by
  unfold recordAt at h
  generalize hoff : 0 = off at h
  clear hoff
  induction f generalizing off with
  | nil => simp [recordAtAux] at h
  | cons d r ih =>
      simp only [recordAtAux] at h
      split at h
      · next hc => cases h; exact hc.2
      · exact ih _ h

theorem LogPointer.ofRange_add (id s n : Nat) :
    LogPointer.ofRange id s (s + n) = ⟨id, s, n⟩ := by
  simp [LogPointer.ofRange]

theorem alGet_filter_ge {α : Type} (l : List (Nat × α)) (cid id : Nat) :
    alGet (l.filter (fun e => !decide (e.1 < cid))) id =
      if id < cid then none else alGet l id := by
  have h := alGet_filterKey (fun i => !decide (i < cid)) l id
  by_cases hid : id < cid <;> simp [hid] at h ⊢ <;> exact h

theorem alGet_filter_del {α : Type} (l : List (Nat × α)) (r : Readers) (cid id : Nat) :
    alGet (l.filter (fun e => !(decide (e.1 < cid) && (alGet r e.1).isSome))) id =
      if id < cid ∧ (alGet r id).isSome then none else alGet l id := by
  have h := alGet_filterKey (fun i => !(decide (i < cid) && (alGet r i).isSome)) l id
  by_cases hid : id < cid ∧ (alGet r id).isSome
  · simp only [if_pos hid]
    simpa [hid.1, hid.2] using h
  · simp only [if_neg hid]
    rcases Decidable.not_and_iff_or_not.1 hid with hc | hc
    · simpa [hc] using h
    · simp only [Bool.not_eq_true] at hc
      simpa [hc] using h

/-- The value the store observably associates with a key: the value of the
`Set` record its index pointer designates (used to state read correctness). -/
def absGet (s : KvStore) (k : String) : Option String :=
  match idxGet s.index k with
  | none => none
  | some p =>
    match recordAt ((alGet s.disk p.log_file_id).getD []) p.start_position p.len with
    | some (Command.Set _ v) => some v
    | _ => none

/-- The representation invariant of a running `KvStore`: the index is a sorted
map, the writer buffer is empty between operations and `writer.pos` is the
size of the active segment, segment ids never exceed the active id, readers
and on-disk segments cover the same ids, and every index pointer designates a
whole `Set` record for its own key. -/
structure KvInv (s : KvStore) : Prop where
  sorted : IdxSorted s.index
  wbuf : s.writer.buffered = 0
  active : ∃ f, alGet s.disk s.current_log_id = some f ∧ s.writer.pos = fileSize f
  ids : ∀ id f, alGet s.disk id = some f → id ≤ s.current_log_id
  rdk : ∀ id, (alGet s.readers id).isSome = (alGet s.disk id).isSome
  ptr : ∀ k p, idxGet s.index k = some p → ∃ f v,
    alGet s.disk p.log_file_id = some f ∧
    recordAt f p.start_position p.len = some (Command.Set k v)

theorem get_eval (s : KvStore) (hInv : KvInv s) (k : String) :
    ∃ s', KvStore.get s k = some (Except.ok (absGet s k), s') ∧ KvInv s' ∧
      s'.index = s.index ∧ s'.disk = s.disk ∧
      s'.current_log_id = s.current_log_id ∧
      s'.uncompacted = s.uncompacted ∧ s'.writer = s.writer := by
  cases h : idxGet s.index k with
  | none =>
      refine ⟨s, ?_, hInv, rfl, rfl, rfl, rfl, rfl⟩
      simp [KvStore.get, h, absGet]
  | some p =>
      obtain ⟨f, v, hdisk, hrec⟩ := hInv.ptr k p h
      have hrd : (alGet s.readers p.log_file_id).isSome = true := by
        rw [hInv.rdk, hdisk]; rfl
      obtain ⟨rp, hrp⟩ := Option.isSome_iff_exists.1 hrd
      refine ⟨{ s with
          readers := alSet s.readers p.log_file_id (p.start_position + p.len) },
          ?_, ?_, rfl, rfl, rfl, rfl, rfl⟩
      · simp [KvStore.get, h, hrp, hdisk, hrec, absGet]
      · refine ⟨hInv.sorted, hInv.wbuf, hInv.active, hInv.ids, ?_, hInv.ptr⟩
        intro id
        rw [alGet_set_isSome s.readers p.log_file_id _ (by rw [hrp]; rfl) id]
        exact hInv.rdk id

/-- What one run of the compaction walk produces: the same keys in the same
order, every pointer redirected into the compaction file at consecutive
offsets, each still designating the exact record its old pointer designated,
and the reader map touched only in its positions. -/
theorem compactLoop_spec (cid : Nat) (disk : Disk) (entries : Index) :
    ∀ (readers : Readers) (cf : LogFile),
    (∀ e ∈ entries, (alGet readers e.2.log_file_id).isSome = true ∧
        ∃ f c, alGet disk e.2.log_file_id = some f ∧
          recordAt f e.2.start_position e.2.len = some c) →
    ∃ entries' readers' g,
      compactLoop cid disk entries readers cf (fileSize cf) =
        some (entries', readers', cf ++ g, fileSize (cf ++ g)) ∧
      (∀ id, (alGet readers' id).isSome = (alGet readers id).isSome) ∧
      List.Forall₂ (fun a b =>
        a.1 = b.1 ∧ b.2.log_file_id = cid ∧
        ∃ f c, alGet disk a.2.log_file_id = some f ∧
          recordAt f a.2.start_position a.2.len = some c ∧
          recordAt (cf ++ g) b.2.start_position b.2.len = some c) entries entries' := by
  induction entries with
  | nil =>
      intro readers cf _
      exact ⟨[], readers, [], by simp [compactLoop], fun id => rfl, List.Forall₂.nil⟩
  | cons e rest ih =>
      intro readers cf hvalid
      obtain ⟨k, p⟩ := e
      obtain ⟨hrd, f, c, hdisk, hrec⟩ := hvalid (k, p) (List.mem_cons_self _ _)
      obtain ⟨rp, hrp⟩ := Option.isSome_iff_exists.1 hrd
      have hlen : p.len = encLen c := recordAt_len hrec
      have hval' : ∀ e ∈ rest,
          (alGet (alSet readers p.log_file_id (p.start_position + encLen c))
            e.2.log_file_id).isSome = true ∧
          ∃ f c, alGet disk e.2.log_file_id = some f ∧
            recordAt f e.2.start_position e.2.len = some c := by
        intro e he
        obtain ⟨h1, h2⟩ := hvalid e (List.mem_cons_of_mem _ he)
        refine ⟨?_, h2⟩
        rw [alGet_set_isSome readers p.log_file_id _ hrd]
        exact h1
      obtain ⟨entries', readers', g', hloop, hiso, hrel⟩ :=
        ih (alSet readers p.log_file_id (p.start_position + encLen c)) (cf ++ [c]) hval'
      have hfs : fileSize (cf ++ [c]) = fileSize cf + encLen c := by
        simp [fileSize_append, fileSize]
      have hcat : (cf ++ [c]) ++ g' = cf ++ c :: g' := by simp
      refine ⟨(k, LogPointer.ofRange cid (fileSize cf) (fileSize cf + encLen c)) :: entries',
        readers', c :: g', ?_, ?_, ?_⟩
      · simp only [compactLoop, hrp, hdisk, hrec]
        rw [hfs] at hloop
        rw [hloop]
        rw [hcat]
      · intro id
        rw [hiso id, alGet_set_isSome readers p.log_file_id _ hrd]
      · refine List.Forall₂.cons ⟨rfl, ?_, f, c, hdisk, hrec, ?_⟩ ?_
        · simp [LogPointer.ofRange]
        · rw [LogPointer.ofRange_add]
          exact recordAt_append_cons cf c g'
        · rw [hcat] at hrel
          exact hrel

theorem alGet_set_isSome_mono {α : Type} (l : List (Nat × α)) (id : Nat) (v : α)
    (id' : Nat) (h : (alGet l id').isSome = true) :
    (alGet (alSet l id v) id').isSome = true := by
  by_cases he : id' = id
  · subst he; rw [alGet_set_self]; rfl
  · rw [alGet_set_other _ _ _ _ he]; exact h

theorem alGet_isSome_of_mem {α : Type} {l : List (Nat × α)} {id : Nat} {v : α}
    (h : (id, v) ∈ l) : (alGet l id).isSome = true := by
  induction l with
  | nil => cases h
  | cons e r ih =>
      obtain ⟨i, w⟩ := e
      rcases List.mem_cons.1 h with h | h
      · cases h
        simp [alGet]
      · by_cases hid : id = i
        · subst hid; simp [alGet]
        · simp only [alGet, if_neg hid]
          exact ih h

theorem idxGet_of_mem_sorted {l : Index} {k : String} {p : LogPointer}
    (hs : IdxSorted l) (h : (k, p) ∈ l) : idxGet l k = some p := by
  induction l with
  | nil => cases h
  | cons e r ih =>
      obtain ⟨k', v'⟩ := e
      have hs' : IdxSorted r := by
        simp only [IdxSorted, List.map_cons, List.pairwise_cons] at hs
        exact hs.2
      have hhead : ∀ q ∈ r.map Prod.fst, k' < q := by
        simp only [IdxSorted, List.map_cons, List.pairwise_cons] at hs
        exact hs.1
      rcases List.mem_cons.1 h with h | h
      · cases h
        simp [idxGet]
      · have hk : k' < k := hhead k (List.mem_map.2 ⟨(k, p), h, rfl⟩)
        have hne : k ≠ k' := fun he => absurd (he ▸ hk) (lt_irrefl k')
        simp only [idxGet, if_neg hne]
        exact ih hs' h

theorem forall2_fst {R : (String × LogPointer) → (String × LogPointer) → Prop}
    {l l' : Index} (h : List.Forall₂ R l l')
    (hfst : ∀ a b, R a b → a.1 = b.1) : l'.map Prod.fst = l.map Prod.fst := by
  induction h with
  | nil => rfl
  | cons hab htail ih => simp [ih, hfst _ _ hab]

theorem forall2_idxGet_some {R : (String × LogPointer) → (String × LogPointer) → Prop}
    {l l' : Index} (h : List.Forall₂ R l l')
    (hfst : ∀ a b, R a b → a.1 = b.1) {k : String} {p : LogPointer}
    (hg : idxGet l k = some p) : ∃ p', idxGet l' k = some p' ∧ R (k, p) (k, p') := by
  induction h with
  | nil => simp [idxGet] at hg
  | @cons a b l1 l2 hab htail ih =>
      obtain ⟨ka, va⟩ := a
      obtain ⟨kb, vb⟩ := b
      have hk : ka = kb := hfst _ _ hab
      by_cases hka : k = ka
      · subst hka
        simp only [idxGet, if_pos rfl] at hg
        cases hg
        refine ⟨vb, ?_, ?_⟩
        · simp [idxGet, hk]
        · subst hk; exact hab
      · simp only [idxGet, if_neg hka] at hg
        have hkb : k ≠ kb := hk ▸ hka
        simp only [idxGet, if_neg hkb]
        exact ih hg

theorem forall2_idxGet_none {R : (String × LogPointer) → (String × LogPointer) → Prop}
    {l l' : Index} (h : List.Forall₂ R l l')
    (hfst : ∀ a b, R a b → a.1 = b.1) {k : String}
    (hg : idxGet l k = none) : idxGet l' k = none := by
  rw [idxGet_eq_none_iff] at hg ⊢
  rw [forall2_fst h hfst]
  exact hg

/-- `compact` succeeds on every invariant-respecting state, re-establishes the
invariant, and preserves the observable contents. -/
theorem compact_preserves (s : KvStore) (hInv : KvInv s) :
    ∃ s', KvStore.compact s = some s' ∧ KvInv s' ∧ ∀ q, absGet s' q = absGet s q := by
  have hnid : alGet s.disk (s.current_log_id + 2) = none := by
    cases h : alGet s.disk (s.current_log_id + 2) with
    | none => rfl
    | some f => exact absurd (hInv.ids _ f h) (by omega)
  have hcid : alGet s.disk (s.current_log_id + 1) = none := by
    cases h : alGet s.disk (s.current_log_id + 1) with
    | none => rfl
    | some f => exact absurd (hInv.ids _ f h) (by omega)
  have hne12 : s.current_log_id + 1 ≠ s.current_log_id + 2 := by omega
  have hdisk2 : ∀ id,
      alGet (alSet (alSet s.disk (s.current_log_id + 2) []) (s.current_log_id + 1) []) id =
        if id = s.current_log_id + 1 then some [] else
        if id = s.current_log_id + 2 then some [] else alGet s.disk id := by
    intro id
    by_cases h1 : id = s.current_log_id + 1
    · subst h1; rw [alGet_set_self, if_pos rfl]
    · rw [alGet_set_other _ _ _ _ h1, if_neg h1]
      by_cases h2 : id = s.current_log_id + 2
      · subst h2; rw [alGet_set_self, if_pos rfl]
      · rw [alGet_set_other _ _ _ _ h2, if_neg h2]
  have hrd2 : ∀ id,
      (alGet (alSet (alSet s.readers (s.current_log_id + 2) 0) (s.current_log_id + 1) 0)
        id).isSome =
        (if id = s.current_log_id + 1 then true else
         if id = s.current_log_id + 2 then true else (alGet s.readers id).isSome) := by
    intro id
    by_cases h1 : id = s.current_log_id + 1
    · subst h1; rw [alGet_set_self, if_pos rfl]; rfl
    · rw [alGet_set_other _ _ _ _ h1, if_neg h1]
      by_cases h2 : id = s.current_log_id + 2
      · subst h2; rw [alGet_set_self, if_pos rfl]; rfl
      · rw [alGet_set_other _ _ _ _ h2, if_neg h2]
  have hvalid : ∀ e ∈ s.index,
      (alGet (alSet (alSet s.readers (s.current_log_id + 2) 0) (s.current_log_id + 1) 0)
        e.2.log_file_id).isSome = true ∧
      ∃ f c, alGet (alSet (alSet s.disk (s.current_log_id + 2) [])
          (s.current_log_id + 1) []) e.2.log_file_id = some f ∧
        recordAt f e.2.start_position e.2.len = some c := by
    intro e he
    obtain ⟨k, p⟩ := e
    have hg : idxGet s.index k = some p := idxGet_of_mem_sorted hInv.sorted he
    obtain ⟨f, v, hdisk, hrec⟩ := hInv.ptr k p hg
    have hle : p.log_file_id ≤ s.current_log_id := hInv.ids _ f hdisk
    have h1 : p.log_file_id ≠ s.current_log_id + 1 := by omega
    have h2 : p.log_file_id ≠ s.current_log_id + 2 := by omega
    constructor
    · rw [hrd2, if_neg h1, if_neg h2, hInv.rdk, hdisk]; rfl
    · exact ⟨f, Command.Set k v, by rw [hdisk2, if_neg h1, if_neg h2]; exact hdisk, hrec⟩
  obtain ⟨entries', readers', g, hloop, hiso, hrel⟩ :=
    compactLoop_spec (s.current_log_id + 1)
      (alSet (alSet s.disk (s.current_log_id + 2) []) (s.current_log_id + 1) [])
      s.index
      (alSet (alSet s.readers (s.current_log_id + 2) 0) (s.current_log_id + 1) 0)
      [] hvalid
  have hloop0 : compactLoop (s.current_log_id + 1)
      (alSet (alSet s.disk (s.current_log_id + 2) []) (s.current_log_id + 1) [])
      s.index
      (alSet (alSet s.readers (s.current_log_id + 2) 0) (s.current_log_id + 1) 0)
      [] 0 = some (entries', readers', g, fileSize g) := by
    have h0 : fileSize ([] : LogFile) = 0 := by simp [fileSize]
    rw [← h0]
    simpa using hloop
  have hfst' : ∀ a b : String × LogPointer, (a.1 = b.1 ∧
      b.2.log_file_id = s.current_log_id + 1 ∧
      ∃ f c, alGet (alSet (alSet s.disk (s.current_log_id + 2) [])
          (s.current_log_id + 1) []) a.2.log_file_id = some f ∧
        recordAt f a.2.start_position a.2.len = some c ∧
        recordAt ([] ++ g) b.2.start_position b.2.len = some c) → a.1 = b.1 :=
    fun _ _ h => h.1
  have hrd' : ∀ id, (alGet readers' id).isSome =
      (if id = s.current_log_id + 1 then true else
       if id = s.current_log_id + 2 then true else (alGet s.readers id).isSome) := by
    intro id; rw [hiso id, hrd2 id]
  have hdisk3 : ∀ id,
      alGet (alSet (alSet (alSet s.disk (s.current_log_id + 2) [])
        (s.current_log_id + 1) []) (s.current_log_id + 1) g) id =
        if id = s.current_log_id + 1 then some g else
        if id = s.current_log_id + 2 then some [] else alGet s.disk id := by
    intro id
    by_cases h1 : id = s.current_log_id + 1
    · subst h1; rw [alGet_set_self, if_pos rfl]
    · rw [alGet_set_other _ _ _ _ h1, if_neg h1, hdisk2 id, if_neg h1]
  have hguard : ((readers'.filter (fun e => decide (e.1 < s.current_log_id + 1))).all
      (fun e => (alGet (alSet (alSet (alSet s.disk (s.current_log_id + 2) [])
        (s.current_log_id + 1) []) (s.current_log_id + 1) g) e.1).isSome)) = true := by
    rw [List.all_eq_true]
    intro e he
    rw [List.mem_filter] at he
    obtain ⟨hmem, hlt⟩ := he
    have hlt' : e.1 < s.current_log_id + 1 := of_decide_eq_true hlt
    have h1 : e.1 ≠ s.current_log_id + 1 := by omega
    have h2 : e.1 ≠ s.current_log_id + 2 := by omega
    have hSome : (alGet readers' e.1).isSome = true := by
      have hm : ((e.1, e.2) : Nat × Nat) ∈ readers' := by simpa using hmem
      exact alGet_isSome_of_mem hm
    rw [hrd' e.1, if_neg h1, if_neg h2] at hSome
    rw [hInv.rdk] at hSome
    rw [hdisk3 e.1, if_neg h1, if_neg h2]
    exact hSome
  -- the key/record correspondence between the old and the new index
  have hcorr : ∀ q p', idxGet entries' q = some p' →
      ∃ p v, idxGet s.index q = some p ∧
        p'.log_file_id = s.current_log_id + 1 ∧
        recordAt g p'.start_position p'.len = some (Command.Set q v) ∧
        absGet s q = some v := by
    intro q p' hg'
    cases hq : idxGet s.index q with
    | none =>
        rw [forall2_idxGet_none hrel hfst' hq] at hg'
        cases hg'
    | some p =>
        obtain ⟨p'', hg'', hR⟩ := forall2_idxGet_some hrel hfst' hq
        rw [hg'] at hg''
        cases hg''
        obtain ⟨-, hid', f, c, hdisk2p, hrecp, hrecg⟩ := hR
        obtain ⟨f0, v, hdisk0, hrec0⟩ := hInv.ptr q p hq
        have hle : p.log_file_id ≤ s.current_log_id := hInv.ids _ f0 hdisk0
        have h1 : p.log_file_id ≠ s.current_log_id + 1 := by omega
        have h2 : p.log_file_id ≠ s.current_log_id + 2 := by omega
        rw [hdisk2 _, if_neg h1, if_neg h2, hdisk0] at hdisk2p
        cases hdisk2p
        rw [hrec0] at hrecp
        cases hrecp
        refine ⟨p, v, rfl, hid', (by simpa using hrecg), ?_⟩
        simp [absGet, hq, hdisk0, hrec0]
  refine ⟨{ disk := (alSet (alSet (alSet s.disk (s.current_log_id + 2) [])
                  (s.current_log_id + 1) []) (s.current_log_id + 1) g).filter
                  (fun e => !(decide (e.1 < s.current_log_id + 1) &&
                    (alGet readers' e.1).isSome)),
            readers := readers'.filter (fun e => !decide (e.1 < s.current_log_id + 1)),
            writer := ⟨0, 0⟩,
            current_log_id := s.current_log_id + 2,
            index := entries',
            uncompacted := 0 }, ?_, ?_, ?_⟩
  · show KvStore.compact s = _
    unfold KvStore.compact
    simp only [create_new_log_file, hnid, Option.getD_none]
    have e1 : alGet (alSet s.disk (s.current_log_id + 2) ([] : LogFile))
        (s.current_log_id + 1) = none := by
      rw [alGet_set_other _ _ _ _ hne12]; exact hcid
    simp only [e1, Option.getD_none]
    have e2 : alGet (alSet (alSet s.disk (s.current_log_id + 2) ([] : LogFile))
        (s.current_log_id + 1) ([] : LogFile)) (s.current_log_id + 1) = some [] :=
      alGet_set_self _ _ _
    simp only [e2, Option.getD_some]
    rw [hloop0]
    simp only [hguard, if_true]
    have hfs0 : fileSize ([] : LogFile) = 0 := by simp [fileSize]
    simp [hfs0]
  · constructor
    · show IdxSorted entries'
      unfold IdxSorted
      rw [forall2_fst hrel hfst']
      exact hInv.sorted
    · rfl
    · refine ⟨[], ?_, by simp [fileSize]⟩
      rw [alGet_filter_del, if_neg (by omega : ¬(s.current_log_id + 2 < s.current_log_id + 1 ∧
        (alGet readers' (s.current_log_id + 2)).isSome = true))]
      rw [hdisk3, if_neg (by omega : s.current_log_id + 2 ≠ s.current_log_id + 1), if_pos rfl]
    · intro id f h
      show id ≤ s.current_log_id + 2
      rw [alGet_filter_del] at h
      by_cases hc : id < s.current_log_id + 1 ∧ (alGet readers' id).isSome = true
      · rw [if_pos hc] at h; cases h
      · rw [if_neg hc, hdisk3] at h
        by_cases h1 : id = s.current_log_id + 1
        · omega
        · rw [if_neg h1] at h
          by_cases h2 : id = s.current_log_id + 2
          · omega
          · rw [if_neg h2] at h
            have := hInv.ids id f h
            omega
    · intro id
      rw [alGet_filter_ge, alGet_filter_del]
      by_cases hlt : id < s.current_log_id + 1
      · rw [if_pos hlt]
        have h1 : id ≠ s.current_log_id + 1 := by omega
        have h2 : id ≠ s.current_log_id + 2 := by omega
        by_cases hrs : (alGet readers' id).isSome = true
        · rw [if_pos ⟨hlt, hrs⟩]
          rfl
        · rw [if_neg (fun hh => hrs hh.2)]
          rw [hdisk3, if_neg h1, if_neg h2]
          have hsr : (alGet s.readers id).isSome = false := by
            rw [hrd' id, if_neg h1, if_neg h2] at hrs
            simpa using hrs
          have hds : (alGet s.disk id).isSome = false := by
            rw [← hInv.rdk]; exact hsr
          simp [hds]
      · rw [if_neg hlt, if_neg (fun hh => hlt hh.1), hrd' id, hdisk3 id]
        by_cases h1 : id = s.current_log_id + 1
        · rw [if_pos h1, if_pos h1]; rfl
        · rw [if_neg h1, if_neg h1]
          by_cases h2 : id = s.current_log_id + 2
          · rw [if_pos h2, if_pos h2]; rfl
          · rw [if_neg h2, if_neg h2]
            exact hInv.rdk id
    · intro k p' hg'
      obtain ⟨p, v, hq, hid', hrecg, habs⟩ := hcorr k p' hg'
      refine ⟨g, v, ?_, hrecg⟩
      rw [hid']
      rw [alGet_filter_del, if_neg (by omega : ¬(s.current_log_id + 1 < s.current_log_id + 1 ∧
        (alGet readers' (s.current_log_id + 1)).isSome = true))]
      rw [hdisk3, if_pos rfl]
  · intro q
    cases hq : idxGet s.index q with
    | none =>
        have hq' : idxGet entries' q = none := forall2_idxGet_none hrel hfst' hq
        simp [absGet, hq, hq']
    | some p =>
        obtain ⟨p'', hg'', hR⟩ := forall2_idxGet_some hrel hfst' hq
        obtain ⟨p0, v, hq0, hid', hrecg, habs⟩ := hcorr q p'' hg''
        rw [hq0] at hq
        cases hq
        show absGet _ q = absGet s q
        rw [habs]
        simp only [absGet, hg'']
        rw [hid']
        rw [alGet_filter_del, if_neg (by omega : ¬(s.current_log_id + 1 < s.current_log_id + 1 ∧
          (alGet readers' (s.current_log_id + 1)).isSome = true))]
        rw [hdisk3, if_pos rfl]
        simp [hrecg]

/-- Appending a record to the active segment invalidates no existing pointer:
each one still designates its `Set` record, and the observed value is kept. -/
theorem ptr_append_active (s : KvStore) (hInv : KvInv s) (fa : LogFile)
    (hfa : alGet s.disk s.current_log_id = some fa) (cmd : Command)
    (q : String) (p : LogPointer) (hq : idxGet s.index q = some p) :
    ∃ v0, absGet s q = some v0 ∧ ∃ f,
      alGet (alSet s.disk s.current_log_id (fa ++ [cmd])) p.log_file_id = some f ∧
      recordAt f p.start_position p.len = some (Command.Set q v0) := by
  obtain ⟨f, v0, hdisk, hrec⟩ := hInv.ptr q p hq
  refine ⟨v0, by simp [absGet, hq, hdisk, hrec], ?_⟩
  by_cases hid : p.log_file_id = s.current_log_id
  · rw [hid] at hdisk
    rw [hfa] at hdisk
    cases hdisk
    refine ⟨fa ++ [cmd], ?_, recordAt_append_left [cmd] hrec⟩
    rw [hid, alGet_set_self]
  · exact ⟨f, by rw [alGet_set_other _ _ _ _ hid]; exact hdisk, hrec⟩

/-- `set` preserves the invariant and updates the observable map at exactly
the written key (running compaction if the threshold is crossed). -/
theorem set_preserves (s : KvStore) (k v : String) (hInv : KvInv s) :
    ∃ s', KvStore.set s k v = some s' ∧ KvInv s' ∧
      ∀ q, absGet s' q = if q = k then some v else absGet s q := by
  obtain ⟨fa, hfa, hpos⟩ := hInv.active
  have hgetd : (alGet s.disk s.current_log_id).getD [] = fa := by rw [hfa]; rfl
  have hmid : setMid s k v = { s with
      disk := alSet s.disk s.current_log_id (fa ++ [Command.Set k v]),
      writer := ⟨s.writer.pos + encLen (Command.Set k v), 0⟩,
      index := (idxInsert s.index k
        ⟨s.current_log_id, s.writer.pos, encLen (Command.Set k v)⟩).2,
      uncompacted := s.uncompacted +
        (match (idxInsert s.index k
          ⟨s.current_log_id, s.writer.pos, encLen (Command.Set k v)⟩).1 with
          | some old => old.len | none => 0) } := by
    unfold setMid
    rw [hgetd]
    simp only [BufWriterWithPos.write, BufWriterWithPos.flush, LogPointer.ofRange_add]
  have hmidInv : KvInv (setMid s k v) := by
    rw [hmid]
    refine ⟨?_, rfl, ?_, ?_, ?_, ?_⟩
    · exact idxInsert_sorted _ _ _ hInv.sorted
    · refine ⟨fa ++ [Command.Set k v], ?_, ?_⟩
      · exact alGet_set_self _ _ _
      · show s.writer.pos + encLen (Command.Set k v) = _
        rw [fileSize_append, hpos]
        simp [fileSize]
    · intro id f h
      by_cases hid : id = s.current_log_id
      · exact le_of_eq hid
      · rw [alGet_set_other _ _ _ _ hid] at h
        exact hInv.ids id f h
    · intro id
      show (alGet s.readers id).isSome = _
      rw [alGet_set_isSome s.disk s.current_log_id _ (by rw [hfa]; rfl) id]
      exact hInv.rdk id
    · intro q p hq
      by_cases hqk : q = k
      · subst hqk
        rw [idxGet_insert_self] at hq
        cases hq
        refine ⟨fa ++ [Command.Set q v], v, alGet_set_self _ _ _, ?_⟩
        show recordAt (fa ++ [Command.Set q v]) s.writer.pos
          (encLen (Command.Set q v)) = _
        rw [hpos]
        exact recordAt_snoc_self fa (Command.Set q v)
      · rw [idxGet_insert_other _ _ _ _ hqk] at hq
        obtain ⟨v0, -, f, hf, hr⟩ :=
          ptr_append_active s hInv fa hfa (Command.Set k v) q p hq
        exact ⟨f, v0, hf, hr⟩
  have hmidAbs : ∀ q, absGet (setMid s k v) q = if q = k then some v else absGet s q := by
    intro q
    by_cases hqk : q = k
    · subst hqk
      rw [if_pos rfl, hmid]
      show absGet _ q = some v
      simp only [absGet, idxGet_insert_self]
      rw [show alGet (alSet s.disk s.current_log_id (fa ++ [Command.Set q v]))
          (⟨s.current_log_id, s.writer.pos, encLen (Command.Set q v)⟩ : LogPointer).log_file_id
          = some (fa ++ [Command.Set q v]) from alGet_set_self _ _ _]
      show (match recordAt (fa ++ [Command.Set q v]) s.writer.pos
        (encLen (Command.Set q v)) with
        | some (Command.Set _ v) => some v | _ => none) = some v
      rw [hpos, recordAt_snoc_self fa (Command.Set q v)]
    · rw [if_neg hqk, hmid]
      show absGet _ q = absGet s q
      cases hq : idxGet s.index q with
      | none =>
          have hq2 : idxGet (idxInsert s.index k
              ⟨s.current_log_id, s.writer.pos, encLen (Command.Set k v)⟩).2 q = none := by
            rw [idxGet_insert_other _ _ _ _ hqk]
            exact hq
          simp [absGet, hq, hq2]
      | some p =>
          obtain ⟨v0, habs0, f, hf, hr⟩ :=
            ptr_append_active s hInv fa hfa (Command.Set k v) q p hq
          have hq2 : idxGet (idxInsert s.index k
              ⟨s.current_log_id, s.writer.pos, encLen (Command.Set k v)⟩).2 q = some p := by
            rw [idxGet_insert_other _ _ _ _ hqk]
            exact hq
          rw [habs0]
          simp [absGet, hq2, hf, hr]
  unfold KvStore.set
  by_cases hthr : (setMid s k v).uncompacted > COMPACTION_THRESHOLD
  · rw [if_pos hthr]
    obtain ⟨s', hc, hInv', habs'⟩ := compact_preserves _ hmidInv
    exact ⟨s', hc, hInv', fun q => (habs' q).trans (hmidAbs q)⟩
  · rw [if_neg hthr]
    exact ⟨_, rfl, hmidInv, hmidAbs⟩

/-- `remove` preserves the invariant and erases exactly the removed key from
the observable map; an absent key is reported with `KeyNotFound` and the state
is untouched. -/
theorem remove_preserves (s : KvStore) (k : String) (hInv : KvInv s) :
    ∃ r s', KvStore.remove s k = some (r, s') ∧ KvInv s' ∧
      ∀ q, absGet s' q = if q = k then none else absGet s q := by
  obtain ⟨fa, hfa, hpos⟩ := hInv.active
  have hgetd : (alGet s.disk s.current_log_id).getD [] = fa := by rw [hfa]; rfl
  cases hk : idxGet s.index k with
  | none =>
      have hpair : idxRemove s.index k = (none, (idxRemove s.index k).2) :=
        Prod.ext (by rw [idxRemove_fst]; exact hk) rfl
      refine ⟨Except.error KvsError.KeyNotFound, s, ?_, hInv, ?_⟩
      · unfold KvStore.remove KvStore.removeCore
        rw [hpair]
      · intro q
        by_cases hq : q = k
        · subst hq
          rw [if_pos rfl]
          simp [absGet, hk]
        · rw [if_neg hq]
  | some old =>
      have hpair : idxRemove s.index k = (some old, (idxRemove s.index k).2) :=
        Prod.ext (by rw [idxRemove_fst]; exact hk) rfl
      have hmidInv : KvInv ({ s with
          disk := alSet s.disk s.current_log_id (fa ++ [Command.Rm k]),
          writer := ⟨s.writer.pos + encLen (Command.Rm k), 0⟩,
          index := (idxRemove s.index k).2,
          uncompacted := s.uncompacted + old.len +
            (s.writer.pos + encLen (Command.Rm k) - s.writer.pos) } : KvStore) := by
        refine ⟨?_, rfl, ?_, ?_, ?_, ?_⟩
        · exact idxRemove_sorted _ _ hInv.sorted
        · refine ⟨fa ++ [Command.Rm k], alGet_set_self _ _ _, ?_⟩
          show s.writer.pos + encLen (Command.Rm k) = _
          rw [fileSize_append, hpos]
          simp [fileSize]
        · intro id f h
          by_cases hid : id = s.current_log_id
          · exact le_of_eq hid
          · rw [alGet_set_other _ _ _ _ hid] at h
            exact hInv.ids id f h
        · intro id
          show (alGet s.readers id).isSome = _
          rw [alGet_set_isSome s.disk s.current_log_id _ (by rw [hfa]; rfl) id]
          exact hInv.rdk id
        · intro q p hq
          by_cases hqk : q = k
          · subst hqk
            rw [idxGet_remove_self _ _ hInv.sorted] at hq
            cases hq
          · rw [idxGet_remove_other _ _ _ hqk] at hq
            obtain ⟨v0, -, f, hf, hr⟩ :=
              ptr_append_active s hInv fa hfa (Command.Rm k) q p hq
            exact ⟨f, v0, hf, hr⟩
      have hmidAbs : ∀ q, absGet ({ s with
          disk := alSet s.disk s.current_log_id (fa ++ [Command.Rm k]),
          writer := ⟨s.writer.pos + encLen (Command.Rm k), 0⟩,
          index := (idxRemove s.index k).2,
          uncompacted := s.uncompacted + old.len +
            (s.writer.pos + encLen (Command.Rm k) - s.writer.pos) } : KvStore) q =
          if q = k then none else absGet s q := by
        intro q
        by_cases hqk : q = k
        · subst hqk
          rw [if_pos rfl]
          have hq2 : idxGet (idxRemove s.index q).2 q = none :=
            idxGet_remove_self _ _ hInv.sorted
          simp [absGet, hq2]
        · rw [if_neg hqk]
          show absGet _ q = absGet s q
          cases hq : idxGet s.index q with
          | none =>
              have hq2 : idxGet (idxRemove s.index k).2 q = none := by
                rw [idxGet_remove_other _ _ _ hqk]
                exact hq
              simp [absGet, hq, hq2]
          | some p =>
              obtain ⟨v0, habs0, f, hf, hr⟩ :=
                ptr_append_active s hInv fa hfa (Command.Rm k) q p hq
              have hq2 : idxGet (idxRemove s.index k).2 q = some p := by
                rw [idxGet_remove_other _ _ _ hqk]
                exact hq
              rw [habs0]
              simp [absGet, hq2, hf, hr]
      unfold KvStore.remove KvStore.removeCore
      rw [hpair]
      simp only [BufWriterWithPos.write, BufWriterWithPos.flush, hgetd, if_true]
      by_cases hthr : s.uncompacted + old.len +
          (s.writer.pos + encLen (Command.Rm k) - s.writer.pos) > COMPACTION_THRESHOLD
      · rw [if_pos hthr]
        obtain ⟨s', hc, hInv', habs'⟩ := compact_preserves _ hmidInv
        rw [hc]
        exact ⟨Except.ok (), s', rfl, hInv',
          fun q => (habs' q).trans (hmidAbs q)⟩
      · rw [if_neg hthr]
        exact ⟨Except.ok (), _, rfl, hmidInv, hmidAbs⟩

/-- The engine produced by `KvStore::open` on an empty directory: one fresh
active segment with id `0 + 1 = 1`. -/
def store0 : KvStore :=
  { disk := [(1, [])], readers := [(1, 0)], writer := ⟨0, 0⟩,
    current_log_id := 1, index := [], uncompacted := 0 }

theorem openStore_empty : KvStore.openStore [] = Except.ok store0 := rfl

theorem store0_inv : KvInv store0 := by
  refine ⟨?_, rfl, ⟨[], rfl, rfl⟩, ?_, ?_, ?_⟩
  · simp [IdxSorted, store0]
  · intro id f h
    show id ≤ 1
    by_cases hid : id = 1
    · omega
    · simp only [store0, alGet, if_neg hid] at h
      cases h
  · intro id
    by_cases hid : id = 1 <;> simp [store0, alGet, hid]
  · intro q p hq
    simp [store0, idxGet] at hq

theorem absGet_store0 (q : String) : absGet store0 q = none := by
  simp [absGet, store0, idxGet]

/-- A client operation of the engine interface exercised by the
read-correctness claim (`set` / `remove`). -/
inductive Op where
  | set (key value : String)
  | remove (key : String)
deriving DecidableEq

/-- The key an operation touches. -/
def Op.key : Op → String
  | .set k _ => k
  | .remove k => k

/-- Run one operation; a failed `remove` (`KeyNotFound`) leaves the state and
the run continues, as the engine object survives the error. -/
def applyOp (s : KvStore) : Op → Option KvStore
  | .set k v => KvStore.set s k v
  | .remove k => (KvStore.remove s k).map Prod.snd

/-- Run a whole sequence of operations. -/
def runOps : List Op → KvStore → Option KvStore
  | [], s => some s
  | op :: rest, s =>
    match applyOp s op with
    | none => none
    | some s' => runOps rest s'

/-- The reference map semantics of a sequence of operations. -/
def specFold (m : String → Option String) : List Op → String → Option String
  | [], k => m k
  | Op.set k' v :: rest, k =>
      specFold (fun q => if q = k' then some v else m q) rest k
  | Op.remove k' :: rest, k =>
      specFold (fun q => if q = k' then none else m q) rest k

/-- The claim formulation of liveness: the last operation of the sequence that
touches `k` decides the answer, and it must be a `set` for `k` to be live. -/
def liveValue (S : List Op) (k : String) : Option String :=
  match S.reverse.find? (fun op => op.key == k) with
  | some (Op.set _ v) => some v
  | _ => none

theorem specFold_eq (S : List Op) : ∀ (m : String → Option String) (k : String),
    specFold m S k =
      match S.reverse.find? (fun op => op.key == k) with
      | some (Op.set _ v) => some v
      | some (Op.remove _) => none
      | none => m k := by
  induction S with
  | nil => intro m k; rfl
  | cons op rest ih =>
      intro m k
      have hrev : (op :: rest).reverse = rest.reverse ++ [op] := by simp
      rw [hrev, List.find?_append]
      cases op with
      | set k' v =>
          simp only [specFold]
          rw [ih]
          cases hfind : rest.reverse.find? (fun op => op.key == k) with
          | some o => cases o <;> simp
          | none =>
              simp only [Option.none_orElse]
              by_cases hk : k = k'
              · subst hk
                simp [List.find?, Op.key]
              · have : ((Op.set k' v).key == k) = false := by
                  simp [Op.key]
                  exact fun he => hk he.symm
                simp [List.find?, this, hk]
      | remove k' =>
          simp only [specFold]
          rw [ih]
          cases hfind : rest.reverse.find? (fun op => op.key == k) with
          | some o => cases o <;> simp
          | none =>
              simp only [Option.none_orElse]
              by_cases hk : k = k'
              · subst hk
                simp [List.find?, Op.key]
              · have : ((Op.remove k').key == k) = false := by
                  simp [Op.key]
                  exact fun he => hk he.symm
                simp [List.find?, this, hk]

theorem liveValue_eq_specFold (S : List Op) (k : String) :
    liveValue S k = specFold (fun _ => none) S k := by
  rw [specFold_eq]
  unfold liveValue
  cases hfind : S.reverse.find? (fun op => op.key == k) with
  | none => rfl
  | some o => cases o <;> rfl

/-- Executing any operation sequence from an invariant state succeeds and
tracks the reference map semantics. -/
theorem runOps_abs (S : List Op) : ∀ (s : KvStore) (m : String → Option String),
    KvInv s → (∀ q, absGet s q = m q) →
    ∃ s', runOps S s = some s' ∧ KvInv s' ∧ ∀ q, absGet s' q = specFold m S q := by
  induction S with
  | nil => intro s m hInv habs; exact ⟨s, rfl, hInv, habs⟩
  | cons op rest ih =>
      intro s m hInv habs
      cases op with
      | set k v =>
          obtain ⟨s1, hset, hInv1, habs1⟩ := set_preserves s k v hInv
          obtain ⟨s', hrun, hInv', habs'⟩ := ih s1
            (fun q => if q = k then some v else m q) hInv1
            (fun q => by rw [habs1 q]; by_cases hq : q = k <;> simp [hq, habs q])
          refine ⟨s', ?_, hInv', habs'⟩
          simp only [runOps, applyOp, hset]
          exact hrun
      | remove k =>
          obtain ⟨r, s1, hrem, hInv1, habs1⟩ := remove_preserves s k hInv
          obtain ⟨s', hrun, hInv', habs'⟩ := ih s1
            (fun q => if q = k then none else m q) hInv1
            (fun q => by rw [habs1 q]; by_cases hq : q = k <;> simp [hq, habs q])
          refine ⟨s', ?_, hInv', habs'⟩
          simp only [runOps, applyOp, hrem, Option.map_some']
          exact hrun

/-- States reachable from an engine opened on an empty directory through the
public operations. -/
inductive Reachable : KvStore → Prop where
  | init : Reachable store0
  | step_set (s : KvStore) (k v : String) (s' : KvStore) :
      Reachable s → KvStore.set s k v = some s' → Reachable s'
  | step_remove (s : KvStore) (k : String) (r : Except KvsError Unit) (s' : KvStore) :
      Reachable s → KvStore.remove s k = some (r, s') → Reachable s'
  | step_compact (s s' : KvStore) :
      Reachable s → KvStore.compact s = some s' → Reachable s'
  | step_get (s : KvStore) (k : String) (r : Except KvsError (Option String))
      (s' : KvStore) :
      Reachable s → KvStore.get s k = some (r, s') → Reachable s'

theorem reachable_inv (s : KvStore) (h : Reachable s) : KvInv s := by
  induction h with
  | init => exact store0_inv
  | step_set s k v s' hr hstep ih =>
      obtain ⟨s'', hset, hInv'', -⟩ := set_preserves s k v ih
      rw [hstep] at hset
      cases hset
      exact hInv''
  | step_remove s k r s' hr hstep ih =>
      obtain ⟨r', s'', hrem, hInv'', -⟩ := remove_preserves s k ih
      rw [hstep] at hrem
      cases hrem
      exact hInv''
  | step_compact s s' hr hstep ih =>
      obtain ⟨s'', hc, hInv'', -⟩ := compact_preserves s ih
      rw [hstep] at hc
      cases hc
      exact hInv''
  | step_get s k r s' hr hstep ih =>
      obtain ⟨s'', hget, hInv'', -⟩ := get_eval s ih k
      rw [hstep] at hget
      cases hget
      exact hInv''

/-- A directory entry as `read_dir` yields it: file name and whether the path
is a regular file (`path.is_file()`). -/
structure DirEntry where
  name : List Char
  isFile : Bool
deriving DecidableEq

/-- The characters of `".log"`. -/
def logPat : List Char := ['.', 'l', 'o', 'g']

/-- `path.extension() == Some("log")`: the name ends in `.log` and is longer
than `.log` itself (a bare `.log` is a leading-dot file with no extension). -/
def hasLogExtension (name : List Char) : Bool :=
  decide (4 < name.length) && decide (name.drop (name.length - 4) = logPat)

/-- `str::trim_end_matches(".log")`: repeatedly strip a trailing `.log`.
The fuel argument only bounds the recursion; every successful round removes
four characters, so `name.length` rounds always suffice. -/
def trimLogFuel : Nat → List Char → List Char
  | 0, name => name
  | fuel + 1, name =>
    if 4 ≤ name.length ∧ name.drop (name.length - 4) = logPat then
      trimLogFuel fuel (name.take (name.length - 4))
    else name

/-- `name.trim_end_matches(".log")`. -/
def trimLog (name : List Char) : List Char :=
  trimLogFuel name.length name

/-- The numeric value of an ASCII digit. -/
def digitVal (c : Char) : Option Nat :=
  if '0' ≤ c ∧ c ≤ '9' then some (c.toNat - 48) else none

/-- One or more decimal digits, folded into a number (no sign handling). -/
def parseDigits : List Char → Option Nat
  | [] => none
  | cs =>
      cs.foldl (fun acc c =>
        match acc, digitVal c with
        | some n, some d => some (n * 10 + d)
        | _, _ => none) (some 0)

/-- `str::parse::<u64>()`: an optional leading `+`, then one or more decimal
digits, rejecting values that do not fit in 64 bits. -/
def parseU64 (s : List Char) : Option Nat :=
  let t := match s with
    | '+' :: r => r
    | r => r
  match parseDigits t with
  | some n => if n < 2 ^ 64 then some n else none
  | none => none

/-- `sort_log_files` of `src/kv.rs`: keep entries that are regular files with
extension `log`, take the file name with every trailing `.log` stripped
(`trim_end_matches`), parse it as `u64` (silently dropping failures), and
sort ascending.  (`sort_unstable` on `u64` keys is modelled by insertion
sort: equal elements are indistinguishable, so any sort yields this list.) -/
def sort_log_files (entries : List DirEntry) : List Nat :=
  (entries.filterMap (fun e =>
    if e.isFile && hasLogExtension e.name then parseU64 (trimLog e.name)
    else none)).insertionSort (· ≤ ·)

/-- The enumeration exactly as claim C5 words it: keep regular files whose
name ends with `.log` and whose stem — the name with the final `.log`
removed — parses as `u64`; sort ascending; no duplicates. -/
def sortLogFilesClaim (entries : List DirEntry) : List Nat :=
  ((entries.filterMap (fun e =>
    if e.isFile && decide (4 ≤ e.name.length) &&
        decide (e.name.drop (e.name.length - 4) = logPat) then
      parseU64 (e.name.take (e.name.length - 4))
    else none)).insertionSort (· ≤ ·)).dedup

theorem compactLoop_readers (cid : Nat) (disk : Disk) (entries : Index) :
    ∀ (readers : Readers) (cf : LogFile) (pos : Nat)
      (res : Index × Readers × LogFile × Nat),
    compactLoop cid disk entries readers cf pos = some res →
    ∀ id, (alGet res.2.1 id).isSome = (alGet readers id).isSome := by
  induction entries with
  | nil =>
      intro readers cf pos res h id
      simp only [compactLoop] at h
      cases h
      rfl
  | cons e rest ih =>
      intro readers cf pos res h id
      obtain ⟨k, p⟩ := e
      simp only [compactLoop] at h
      split at h
      · cases h
      · next rp h1 =>
          split at h
          · cases h
          · next f h2 =>
              split at h
              · cases h
              · next c h3 =>
                  split at h
                  · cases h
                  · next rest' r2 cf' pos' h4 =>
                      cases h
                      have hr := ih _ _ _ (rest', r2, cf', pos') h4 id
                      rw [hr, alGet_set_isSome readers p.log_file_id _
                        (by rw [h1]; rfl) id]

/-- C1: for every sequence of `set`/`remove` operations executed on an engine
opened on an empty directory and every key `k`, `get k` returns `Some` of the
last value set for `k` when `k` is live (its last operation is a `set` not
followed by a `remove`) and `None` otherwise, even when the operations
internally trigger compaction. -/
theorem claim_read_correctness (S : List Op) (k : String) :
    (runOps S store0).bind (fun s => (KvStore.get s k).map Prod.fst) =
      some (Except.ok (liveValue S k)) := by
  obtain ⟨s', hrun, hInv', habs'⟩ :=
    runOps_abs S store0 (fun _ => none) store0_inv absGet_store0
  rw [hrun, Option.some_bind]
  obtain ⟨s'', hget, -, -, -, -, -, -⟩ := get_eval s' hInv' k
  rw [hget, Option.map_some']
  rw [habs' k, liveValue_eq_specFold]

/-- C3: removing a key absent from the index returns `KeyNotFound` and changes
nothing at all: no file grows, the index and the stale-byte counter are
untouched (the returned state is the input state). -/
theorem claim_remove_absent (s : KvStore) (k : String)
    (h : idxGet s.index k = none) :
    KvStore.remove s k = some (Except.error KvsError.KeyNotFound, s) := by
  have hpair : idxRemove s.index k = (none, (idxRemove s.index k).2) :=
    Prod.ext (by rw [idxRemove_fst]; exact h) rfl
  unfold KvStore.remove KvStore.removeCore
  rw [hpair]

/-- Witness for C3 at a concrete store and key. -/
theorem claim_remove_absent_witness :
    idxGet store0.index "a" = none ∧
    KvStore.remove store0 "a" = some (Except.error KvsError.KeyNotFound, store0) :=
  ⟨by decide, claim_remove_absent store0 "a" (by decide)⟩

/-- C6: a successful `set` inserts the pointer `(active_id, pos0..pos1)` built
from the writer position before encoding and after encode-plus-flush, adds the
displaced pointer length (if any) to `uncompacted`, and invokes compaction
exactly when the resulting `uncompacted` strictly exceeds the 1 MiB
threshold. -/
theorem claim_set_step (s : KvStore) (k v : String) (hs : IdxSorted s.index) :
    idxGet (setMid s k v).index k =
      some (LogPointer.ofRange s.current_log_id s.writer.pos
        ((s.writer.write (encLen (Command.Set k v))).flush.pos)) ∧
    (setMid s k v).uncompacted = s.uncompacted +
      (match idxGet s.index k with | some old => old.len | none => 0) ∧
    COMPACTION_THRESHOLD = 1048576 ∧
    KvStore.set s k v =
      (if (setMid s k v).uncompacted > COMPACTION_THRESHOLD
       then (setMid s k v).compact else some (setMid s k v)) := by
  refine ⟨?_, ?_, rfl, rfl⟩
  · show idxGet (idxInsert s.index k _).2 k = _
    exact idxGet_insert_self _ _ _
  · show s.uncompacted + _ = _
    rw [idxInsert_fst _ _ _ hs]

/-- Witness for C6 at a concrete store, key and value. -/
theorem claim_set_step_witness :
    IdxSorted store0.index ∧
    (idxGet (setMid store0 "a" "b").index "a" =
      some (LogPointer.ofRange store0.current_log_id store0.writer.pos
        ((store0.writer.write (encLen (Command.Set "a" "b"))).flush.pos)) ∧
    (setMid store0 "a" "b").uncompacted = store0.uncompacted +
      (match idxGet store0.index "a" with | some old => old.len | none => 0) ∧
    COMPACTION_THRESHOLD = 1048576 ∧
    KvStore.set store0 "a" "b" =
      (if (setMid store0 "a" "b").uncompacted > COMPACTION_THRESHOLD
       then (setMid store0 "a" "b").compact else some (setMid store0 "a" "b"))) :=
  ⟨by simp [IdxSorted, store0], claim_set_step store0 "a" "b" (by simp [IdxSorted, store0])⟩

/-- C9: removing a present key mutates the in-memory state before touching
disk; when the tombstone write fails, the error is returned with the key
already removed from the index and `uncompacted` already increased by the old
pointer length, and nothing else (disk, writer) is changed or rolled back. -/
theorem claim_remove_error_state (s : KvStore) (k : String) (old : LogPointer)
    (hs : IdxSorted s.index) (h : idxGet s.index k = some old) :
    KvStore.removeCore s k false =
      some (Except.error KvsError.SerializationError,
        { s with index := (idxRemove s.index k).2,
                 uncompacted := s.uncompacted + old.len }) ∧
    idxGet (idxRemove s.index k).2 k = none := by
  constructor
  · have hpair : idxRemove s.index k = (some old, (idxRemove s.index k).2) :=
      Prod.ext (by rw [idxRemove_fst]; exact h) rfl
    unfold KvStore.removeCore
    rw [hpair]
    rfl
  · exact idxGet_remove_self _ _ hs

/-- Witness for C9 at a concrete store holding one key. -/
theorem claim_remove_error_state_witness :
    IdxSorted ({
      disk := [(1, [])], readers := [(1, 0)], writer := ⟨0, 0⟩,
      current_log_id := 1, index := [("a", ⟨1, 0, 5⟩)],
      uncompacted := 0 } : KvStore).index ∧
    idxGet ({
      disk := [(1, [])], readers := [(1, 0)], writer := ⟨0, 0⟩,
      current_log_id := 1, index := [("a", ⟨1, 0, 5⟩)],
      uncompacted := 0 } : KvStore).index "a" = some ⟨1, 0, 5⟩ ∧
    (KvStore.removeCore {
      disk := [(1, [])], readers := [(1, 0)], writer := ⟨0, 0⟩,
      current_log_id := 1, index := [("a", ⟨1, 0, 5⟩)],
      uncompacted := 0 } "a" false =
      some (Except.error KvsError.SerializationError, {
        disk := [(1, [])], readers := [(1, 0)], writer := ⟨0, 0⟩,
        current_log_id := 1, index := (idxRemove [("a", ⟨1, 0, 5⟩)] "a").2,
        uncompacted := 0 + (5 : Nat) }) ∧
     idxGet (idxRemove [("a", ⟨1, 0, 5⟩)] "a").2 "a" = none) :=
  ⟨by simp [IdxSorted], by decide,
    claim_remove_error_state _ "a" ⟨1, 0, 5⟩ (by simp [IdxSorted]) (by decide)⟩

/-- C10: a `get` leaves the index, the active segment id, the stale-byte
counter, the writer and the on-disk files unchanged; the only component it may
touch is the position of the reader for the segment its pointer names. -/
theorem claim_get_frame (s : KvStore) (k : String)
    (r : Except KvsError (Option String)) (s' : KvStore)
    (h : KvStore.get s k = some (r, s')) :
    s'.index = s.index ∧ s'.current_log_id = s.current_log_id ∧
    s'.uncompacted = s.uncompacted ∧ s'.writer = s.writer ∧ s'.disk = s.disk ∧
    ∀ id, (∀ p, idxGet s.index k = some p → p.log_file_id ≠ id) →
      alGet s'.readers id = alGet s.readers id := by
  unfold KvStore.get at h
  split at h
  · next cmd hk =>
      split at h
      · cases h
      · split at h
        · cases h
        · split at h <;>
            (cases h;
             exact ⟨rfl, rfl, rfl, rfl, rfl,
               fun id hid => alGet_set_other _ _ _ _ (Ne.symm (hid cmd hk))⟩)
  · cases h
    exact ⟨rfl, rfl, rfl, rfl, rfl, fun id _ => rfl⟩

/-- Witness for C10 at a concrete store and key. -/
theorem claim_get_frame_witness :
    KvStore.get store0 "a" = some (Except.ok none, store0) ∧
    (store0.index = store0.index ∧
     store0.current_log_id = store0.current_log_id ∧
     store0.uncompacted = store0.uncompacted ∧
     store0.writer = store0.writer ∧ store0.disk = store0.disk ∧
     ∀ id, (∀ p, idxGet store0.index "a" = some p → p.log_file_id ≠ id) →
       alGet store0.readers id = alGet store0.readers id) :=
  ⟨rfl, claim_get_frame store0 "a" (Except.ok none) store0 rfl⟩

/-- C4 (amended): `get` fails with `UnexpectedCommand` whenever the record its
pointer designates is not a `Set`; during replay, however, a record that is
neither `Set` nor `Remove` (such as a `Get`) is silently skipped — it changes
neither the index nor the stale-byte count and raises no error. -/
theorem claim_unexpected_command (s : KvStore) (k : String) (p : LogPointer)
    (rp : Nat) (f : LogFile) (c : Command)
    (h1 : idxGet s.index k = some p)
    (h2 : alGet s.readers p.log_file_id = some rp)
    (h3 : alGet s.disk p.log_file_id = some f)
    (h4 : recordAt f p.start_position p.len = some c)
    (h5 : ∀ k' v', c ≠ Command.Set k' v') :
    (KvStore.get s k).map Prod.fst =
      some (Except.error KvsError.UnexpectedCommand) ∧
    ∀ (id : Nat) (q : String) (rest : LogFile) (pos : Nat) (index : Index)
      (unc : Nat),
      loadAux id (Command.Get q :: rest) pos index unc =
        loadAux id rest (pos + encLen (Command.Get q)) index unc := by
  constructor
  · cases c with
    | Set k' v' => exact absurd rfl (h5 k' v')
    | Get q => simp [KvStore.get, h1, h2, h3, h4]
    | Rm q => simp [KvStore.get, h1, h2, h3, h4]
  · intro id q rest pos index unc
    rfl

/-- Counterexample for C4 as stated: replaying a log that contains a `Get`
record does not fail with `UnexpectedCommand` — it succeeds with an empty
index and no stale bytes. -/
theorem claim_unexpected_command_counterexample :
    load_log_file 1 [Command.Get "x"] [] = Except.ok ([], 0) ∧
    load_log_file 1 [Command.Get "x"] [] ≠
      Except.error KvsError.UnexpectedCommand := by
  constructor
  · rfl
  · intro h
    rw [show load_log_file 1 [Command.Get "x"] [] = Except.ok ([], 0) from rfl] at h
    cases h

/-- Witness for the amended C4 at a concrete store (a pointer at a tombstone)
and a concrete replay step. -/
theorem claim_unexpected_command_witness :
    ((KvStore.get {
        disk := [(1, [Command.Rm "a"])], readers := [(1, 0)],
        writer := ⟨0, 0⟩, current_log_id := 1,
        index := [("a", ⟨1, 0, encLen (Command.Rm "a")⟩)],
        uncompacted := 0 } "a").map Prod.fst =
      some (Except.error KvsError.UnexpectedCommand)) ∧
    loadAux 5 [Command.Get "q"] 3 [] 0 =
      loadAux 5 [] (3 + encLen (Command.Get "q")) [] 0 := by
  have h := claim_unexpected_command
    { disk := [(1, [Command.Rm "a"])], readers := [(1, 0)],
      writer := ⟨0, 0⟩, current_log_id := 1,
      index := [("a", ⟨1, 0, encLen (Command.Rm "a")⟩)], uncompacted := 0 }
    "a" ⟨1, 0, encLen (Command.Rm "a")⟩ 0 [Command.Rm "a"] (Command.Rm "a")
    rfl rfl rfl
    (by simpa using recordAt_snoc_self [] (Command.Rm "a"))
    (fun k' v' hc => Command.noConfusion hc)
  exact ⟨h.1, h.2 5 "q" [] 3 [] 0⟩

/-- Counterexample for C5 as stated: the file `7.log.log` should be discarded
according to the claim (its stem `7.log` is not an integer), but the source
strips every trailing `.log` and keeps it as segment id 7; and the two files
`07.log` and `7.log` produce the duplicate id list `[7, 7]`, while the claim
promises no duplicates. -/
theorem claim_sort_log_files_counterexample :
    (sort_log_files [⟨['7', '.', 'l', 'o', 'g', '.', 'l', 'o', 'g'], true⟩] = [7] ∧
     sortLogFilesClaim [⟨['7', '.', 'l', 'o', 'g', '.', 'l', 'o', 'g'], true⟩] = []) ∧
    (sort_log_files [⟨['0', '7', '.', 'l', 'o', 'g'], true⟩,
        ⟨['7', '.', 'l', 'o', 'g'], true⟩] = [7, 7] ∧
     sortLogFilesClaim [⟨['0', '7', '.', 'l', 'o', 'g'], true⟩,
        ⟨['7', '.', 'l', 'o', 'g'], true⟩] = [7]) := by
  refine ⟨⟨?_, ?_⟩, ?_, ?_⟩ <;> decide

/-- C5 (amended): the enumeration keeps exactly the regular files whose
extension is `log` and whose name, after removing every trailing `.log`
occurrence, parses as an unsigned 64-bit integer (optionally `+`-prefixed);
the resulting ids are returned in ascending order, with duplicates kept when
distinct names denote the same id. -/
theorem claim_sort_log_files_amended (entries : List DirEntry) :
    List.Sorted (· ≤ ·) (sort_log_files entries) ∧
    List.Perm (sort_log_files entries)
      (entries.filterMap (fun e =>
        if e.isFile && hasLogExtension e.name then parseU64 (trimLog e.name)
        else none)) :=
  ⟨List.sorted_insertionSort _ _, List.perm_insertionSort _ _⟩

/-- The state `compact` produces from `store0` (used by concrete witnesses). -/
def store0Compacted : KvStore :=
  { disk := [(2, []), (3, [])], readers := [(2, 0), (3, 0)], writer := ⟨0, 0⟩,
    current_log_id := 3, index := [], uncompacted := 0 }

/-- C2: a successful `compact` on a state with active id `A` creates the two
fresh segments `A + 1` (compaction output) and `A + 2` (new, empty active
segment), deletes every segment with id strictly below `A + 1` from the
readers and from disk, sets the active id to `A + 2`, and resets the
stale-byte counter to zero. -/
theorem claim_compact_postconditions (s s' : KvStore)
    (hok : KvStore.compact s = some s')
    (hsk : ∀ e ∈ s.disk, (alGet s.readers e.1).isSome = true)
    (hid : ∀ e ∈ s.disk, e.1 ≤ s.current_log_id) :
    s'.current_log_id = s.current_log_id + 2 ∧
    (alGet s'.disk (s.current_log_id + 1)).isSome = true ∧
    alGet s'.disk (s.current_log_id + 2) = some [] ∧
    (alGet s'.readers (s.current_log_id + 1)).isSome = true ∧
    (alGet s'.readers (s.current_log_id + 2)).isSome = true ∧
    (∀ id, id < s.current_log_id + 1 →
      alGet s'.disk id = none ∧ alGet s'.readers id = none) ∧
    s'.uncompacted = 0 := by
  have hnone : ∀ id, s.current_log_id < id → alGet s.disk id = none := by
    intro id hgt
    cases h : alGet s.disk id with
    | none => rfl
    | some f =>
        have := hid (id, f) (alGet_some_mem h)
        simp only [] at this
        omega
  have hnid : alGet s.disk (s.current_log_id + 2) = none := hnone _ (by omega)
  have hcid : alGet s.disk (s.current_log_id + 1) = none := hnone _ (by omega)
  have hne12 : s.current_log_id + 1 ≠ s.current_log_id + 2 := by omega
  have e1 : alGet (alSet s.disk (s.current_log_id + 2) ([] : LogFile))
      (s.current_log_id + 1) = none := by
    rw [alGet_set_other _ _ _ _ hne12]; exact hcid
  have e2 : alGet (alSet (alSet s.disk (s.current_log_id + 2) ([] : LogFile))
      (s.current_log_id + 1) ([] : LogFile)) (s.current_log_id + 1) = some [] :=
    alGet_set_self _ _ _
  have hrd2 : ∀ id,
      (alGet (alSet (alSet s.readers (s.current_log_id + 2) 0)
        (s.current_log_id + 1) 0) id).isSome =
        (if id = s.current_log_id + 1 then true else
         if id = s.current_log_id + 2 then true else (alGet s.readers id).isSome) := by
    intro id
    by_cases h1 : id = s.current_log_id + 1
    · subst h1; rw [alGet_set_self, if_pos rfl]; rfl
    · rw [alGet_set_other _ _ _ _ h1, if_neg h1]
      by_cases h2 : id = s.current_log_id + 2
      · subst h2; rw [alGet_set_self, if_pos rfl]; rfl
      · rw [alGet_set_other _ _ _ _ h2, if_neg h2]
  unfold KvStore.compact at hok
  simp only [create_new_log_file, hnid, Option.getD_none, e1, e2,
    Option.getD_some] at hok
  split at hok
  · cases hok
  · next index' readers3 cf' pos' hloop =>
      have hr3 : ∀ id, (alGet readers3 id).isSome =
          (alGet (alSet (alSet s.readers (s.current_log_id + 2) 0)
            (s.current_log_id + 1) 0) id).isSome :=
        fun id => compactLoop_readers _ _ _ _ _ _ (index', readers3, cf', pos') hloop id
      have hdisk3 : ∀ id,
          alGet (alSet (alSet (alSet s.disk (s.current_log_id + 2) [])
            (s.current_log_id + 1) []) (s.current_log_id + 1) cf') id =
            if id = s.current_log_id + 1 then some cf' else
            if id = s.current_log_id + 2 then some [] else alGet s.disk id := by
        intro id
        by_cases h1 : id = s.current_log_id + 1
        · subst h1; rw [alGet_set_self, if_pos rfl]
        · rw [alGet_set_other _ _ _ _ h1, if_neg h1]
          by_cases h2 : id = s.current_log_id + 2
          · subst h2
            rw [alGet_set_other _ _ _ _ (Ne.symm hne12), alGet_set_self, if_pos rfl]
          · rw [alGet_set_other _ _ _ _ h1, alGet_set_other _ _ _ _ h2, if_neg h2]
      split at hok
      · next hguard =>
          cases hok
          refine ⟨rfl, ?_, ?_, ?_, ?_, ?_, rfl⟩
          · show (alGet (List.filter _ _) _).isSome = true
            rw [alGet_filter_del,
              if_neg (by omega : ¬(s.current_log_id + 1 < s.current_log_id + 1 ∧
                (alGet readers3 (s.current_log_id + 1)).isSome = true)),
              hdisk3, if_pos rfl]
            rfl
          · show alGet (List.filter _ _) _ = some []
            rw [alGet_filter_del,
              if_neg (by omega : ¬(s.current_log_id + 2 < s.current_log_id + 1 ∧
                (alGet readers3 (s.current_log_id + 2)).isSome = true)),
              hdisk3, if_neg (Ne.symm hne12), if_pos rfl]
          · show (alGet (List.filter _ _) _).isSome = true
            rw [alGet_filter_ge,
              if_neg (by omega : ¬ s.current_log_id + 1 < s.current_log_id + 1),
              hr3, hrd2, if_pos rfl]
          · show (alGet (List.filter _ _) _).isSome = true
            rw [alGet_filter_ge,
              if_neg (by omega : ¬ s.current_log_id + 2 < s.current_log_id + 1),
              hr3, hrd2, if_neg (Ne.symm hne12), if_pos rfl]
          · intro id hlt
            have h1 : id ≠ s.current_log_id + 1 := by omega
            have h2 : id ≠ s.current_log_id + 2 := by omega
            constructor
            · show alGet (List.filter _ _) _ = none
              rw [alGet_filter_del]
              by_cases hrs : (alGet readers3 id).isSome = true
              · rw [if_pos ⟨hlt, hrs⟩]
              · rw [if_neg (fun hh => hrs hh.2), hdisk3, if_neg h1, if_neg h2]
                rw [hr3, hrd2, if_neg h1, if_neg h2] at hrs
                cases hd : alGet s.disk id with
                | none => rfl
                | some f =>
                    have := hsk (id, f) (alGet_some_mem hd)
                    simp only [] at this
                    exact absurd this hrs
            · show alGet (List.filter _ _) _ = none
              rw [alGet_filter_ge, if_pos hlt]
      · cases hok

/-- Witness for C2: compaction of the freshly opened store. -/
theorem claim_compact_postconditions_witness :
    KvStore.compact store0 = some store0Compacted ∧
    (∀ e ∈ store0.disk, (alGet store0.readers e.1).isSome = true) ∧
    (∀ e ∈ store0.disk, e.1 ≤ store0.current_log_id) ∧
    (store0Compacted.current_log_id = store0.current_log_id + 2 ∧
     (alGet store0Compacted.disk (store0.current_log_id + 1)).isSome = true ∧
     alGet store0Compacted.disk (store0.current_log_id + 2) = some [] ∧
     (alGet store0Compacted.readers (store0.current_log_id + 1)).isSome = true ∧
     (alGet store0Compacted.readers (store0.current_log_id + 2)).isSome = true ∧
     (∀ id, id < store0.current_log_id + 1 →
       alGet store0Compacted.disk id = none ∧
       alGet store0Compacted.readers id = none) ∧
     store0Compacted.uncompacted = 0) :=
  ⟨by decide, by decide, by decide,
    claim_compact_postconditions store0 store0Compacted (by decide) (by decide)
      (by decide)⟩

/-- C7: `compact` is an identity on the observable store contents — on every
reachable state on which it succeeds, `get` returns afterwards exactly what it
returned before, for every key. -/
theorem claim_compact_get_identity (s s' : KvStore) (hr : Reachable s)
    (hc : KvStore.compact s = some s') (k : String) :
    (KvStore.get s' k).map Prod.fst = (KvStore.get s k).map Prod.fst := by
  have hInv := reachable_inv s hr
  obtain ⟨s1, hc1, hInv1, habs1⟩ := compact_preserves s hInv
  rw [hc] at hc1
  cases hc1
  obtain ⟨s2, hget2, -, -, -, -, -, -⟩ := get_eval s' hInv1 k
  obtain ⟨s3, hget3, -, -, -, -, -, -⟩ := get_eval s hInv k
  rw [hget2, hget3, Option.map_some', Option.map_some', habs1 k]

/-- Witness for C7: compaction of the freshly opened store. -/
theorem claim_compact_get_identity_witness :
    KvStore.compact store0 = some store0Compacted ∧
    (KvStore.get store0Compacted "a").map Prod.fst =
      (KvStore.get store0 "a").map Prod.fst :=
  ⟨by decide,
    claim_compact_get_identity store0 store0Compacted Reachable.init (by decide) "a"⟩

/-- C8: on every reachable state the writer buffer is empty when an operation
starts, so `pos0` read at the start of `set`/`remove` counts only flushed
bytes; `pos1` is read right after a flush, so it does too; and the pointer the
engine records is built from exactly these two positions. -/
theorem claim_writer_flushed (s : KvStore) (k v : String) (hr : Reachable s) :
    s.writer.buffered = 0 ∧
    s.writer.pos = s.writer.flushedBytes ∧
    ((s.writer.write (encLen (Command.Set k v))).flush).buffered = 0 ∧
    ((s.writer.write (encLen (Command.Set k v))).flush).pos =
      ((s.writer.write (encLen (Command.Set k v))).flush).flushedBytes ∧
    idxGet (setMid s k v).index k =
      some (LogPointer.ofRange s.current_log_id s.writer.pos
        ((s.writer.write (encLen (Command.Set k v))).flush.pos)) ∧
    ((s.writer.write (encLen (Command.Rm k))).flush).buffered = 0 ∧
    ((s.writer.write (encLen (Command.Rm k))).flush).pos =
      ((s.writer.write (encLen (Command.Rm k))).flush).flushedBytes := by
  have hb := (reachable_inv s hr).wbuf
  refine ⟨hb, ?_, rfl, ?_, ?_, rfl, ?_⟩
  · show s.writer.pos = s.writer.pos - s.writer.buffered
    rw [hb, Nat.sub_zero]
  · simp [BufWriterWithPos.flushedBytes, BufWriterWithPos.flush,
      BufWriterWithPos.write]
  · show idxGet (idxInsert s.index k _).2 k = _
    exact idxGet_insert_self _ _ _
  · simp [BufWriterWithPos.flushedBytes, BufWriterWithPos.flush,
      BufWriterWithPos.write]

/-- Witness for C8 at the freshly opened store. -/
theorem claim_writer_flushed_witness :
    store0.writer.buffered = 0 ∧
    store0.writer.pos = store0.writer.flushedBytes ∧
    ((store0.writer.write (encLen (Command.Set "a" "b"))).flush).buffered = 0 ∧
    ((store0.writer.write (encLen (Command.Set "a" "b"))).flush).pos =
      ((store0.writer.write (encLen (Command.Set "a" "b"))).flush).flushedBytes ∧
    idxGet (setMid store0 "a" "b").index "a" =
      some (LogPointer.ofRange store0.current_log_id store0.writer.pos
        ((store0.writer.write (encLen (Command.Set "a" "b"))).flush.pos)) ∧
    ((store0.writer.write (encLen (Command.Rm "a"))).flush).buffered = 0 ∧
    ((store0.writer.write (encLen (Command.Rm "a"))).flush).pos =
      ((store0.writer.write (encLen (Command.Rm "a"))).flush).flushedBytes :=
  claim_writer_flushed store0 "a" "b" Reachable.init
